import Mathlib

/-!
Shallow embedding of the minicdcl CDCL SAT solver core (src/core/Solver.cc,
src/core/Solver.h, src/mtl/Vec.h) together with the parts of the repository
that the core uses but whose sources are not present (core/SolverTypes.h,
mtl/Heap.h, mtl/Sort.h, the bounded moving-average queue): those parts are
modelled from the specification, as marked on each definition.

Machine integers of the C++ code are modelled as `Nat`/`Int`; the floating
point activities and decay factors, whose values never decide any of the
checked claims, are modelled as exact rationals (`Dbl`).  `vec<T>` becomes `List T`,
`CRef` an index into a list of clauses, and the sentinels `CRef_Undef`,
`lit_Undef` become `Option`.
-/

set_option maxRecDepth 10000


namespace CDCL

/-! ### Three-valued logic and literals

Modelled from the spec: `core/SolverTypes.h` is not in the sources.  The spec
fixes the encoding: literals are densely numbered 2·v + s with s ∈ {0,1}, the
negation of ℓ is ℓ ⊕ 1, and the value of a literal is the value of its
variable XOR its sign. -/
inductive LBool where
  | ltrue
  | lfalse
  | lundef
deriving DecidableEq, Repr
/-- `lbool(bool)` conversion: `lbool(true) = l_True`. -/
def lboolOf (b : Bool) : LBool := if b then .ltrue else .lfalse

/-- `lbool ^ bool`: XOR with a sign flips True and False, keeps Undef. -/
def LBool.lxor : LBool → Bool → LBool
  | .ltrue, true => .lfalse
  | .lfalse, true => .ltrue
  | l, _ => l

/-- A variable is a non-negative integer and a literal is its dense code
2·v + s; both are plain `Nat` here (a type abbreviation would hide the
arithmetic from `omega`).  `mkLit(var, sign)` builds the literal 2·v + s. -/
def mkLit (v : Nat) (s : Bool) : Nat := 2 * v + s.toNat

/-- `var(p)`. -/
def litVar (p : Nat) : Nat := p / 2

/-- `sign(p)`. -/
def litSign (p : Nat) : Bool := p % 2 == 1

/-- `~p`, i.e. ℓ ⊕ 1: flip the sign bit. -/
def litNeg (p : Nat) : Nat := if p % 2 = 1 then p - 1 else p + 1

/-! ### Doubles

C++ `double` fields (activities, decay factors, averages) are modelled as
exact rationals, represented as an unnormalised numerator/denominator pair
so that all arithmetic is plain integer arithmetic.  Denominators are
positive in every value the solver builds, and comparison is by
cross-multiplication. -/
structure Dbl where
  num : Int
  den : Nat
deriving DecidableEq, Repr

instance (n : Nat) : OfNat Dbl n := ⟨⟨n, 1⟩⟩

def Dbl.ofNat (n : Nat) : Dbl := ⟨n, 1⟩

def Dbl.add (x y : Dbl) : Dbl := ⟨x.num * y.den + y.num * x.den, x.den * y.den⟩

def Dbl.mul (x y : Dbl) : Dbl := ⟨x.num * y.num, x.den * y.den⟩

def Dbl.inv (x : Dbl) : Dbl :=
  if x.num < 0 then ⟨-(x.den : Int), x.num.natAbs⟩ else ⟨(x.den : Int), x.num.natAbs⟩

/-- `x < y` by cross-multiplication (denominators are positive). -/
def Dbl.blt (x y : Dbl) : Bool := decide (x.num * (y.den : Int) < y.num * (x.den : Int))

/-! ### Bounded moving-average queue

Modelled from the spec: the declarations of `lbdQueue` / `trailQueue` are not
in the sources.  Spec §4.9: a fixed-capacity ring (capacities 50 and 5000)
with O(1) push that overwrites the oldest element when full, an average
query, and `fastclear` resetting the logical size to 0; `isvalid` holds iff
the queue is full. -/
structure BQueue where
  cap : Nat
  elems : List Nat
deriving DecidableEq, Repr

def BQueue.initSize (n : Nat) : BQueue := ⟨n, []⟩

def BQueue.push (q : BQueue) (x : Nat) : BQueue :=
  if q.elems.length < q.cap then ⟨q.cap, q.elems ++ [x]⟩
  else ⟨q.cap, q.elems.drop 1 ++ [x]⟩

def BQueue.isvalid (q : BQueue) : Bool := q.elems.length == q.cap

def BQueue.fastclear (q : BQueue) : BQueue := ⟨q.cap, []⟩

def BQueue.getavg (q : BQueue) : Dbl := ⟨(q.elems.sum : Int), q.elems.length⟩

/-! ### Clauses and the clause arena

Modelled from the spec where `core/SolverTypes.h` is missing: a clause is an
ordered sequence of literals with a learnt flag, a deletion mark, a floating
activity and an LBD; a `CRef` is an index into the arena; `free` only
accounts the clause's units as wasted; `reloc` copies a clause into a fresh
arena once and records a forwarding reference.  The header occupies one unit
and a learnt clause stores activity and LBD in two extra units. -/
structure Clause where
  lits : List Nat
  learnt : Bool
  mark : Nat
  act : Dbl
  lbd : Nat
  /-- Forwarding address set by `reloc` (the relocated flag plus the CRef
  stored in the first-literal slot). -/
  reloced : Option Nat
deriving DecidableEq, Repr

def Clause.size (c : Clause) : Nat := c.lits.length

/-- Units occupied in the arena: header + literals + (activity, LBD) if learnt. -/
def Clause.units (c : Clause) : Nat := 1 + c.lits.length + (if c.learnt then 2 else 0)

structure Arena where
  clauses : List Clause
  wasted : Nat
deriving DecidableEq, Repr

def Arena.get (ca : Arena) (cr : Nat) : Clause :=
  ca.clauses.getD cr ⟨[], false, 0, 0, 0, none⟩

def Arena.setc (ca : Arena) (cr : Nat) (c : Clause) : Arena :=
  ⟨ca.clauses.set cr c, ca.wasted⟩

/-- `ClauseAllocator::alloc`. -/
def Arena.alloc (ca : Arena) (lits : List Nat) (learnt : Bool) : Nat × Arena :=
  (ca.clauses.length, ⟨ca.clauses ++ [⟨lits, learnt, 0, 0, 0, none⟩], ca.wasted⟩)

/-- `ClauseAllocator::free`: only accounts the units as wasted. -/
def Arena.free (ca : Arena) (cr : Nat) : Arena :=
  ⟨ca.clauses, ca.wasted + (ca.get cr).units⟩

/-- `ClauseAllocator::size` in units. -/
def Arena.usize (ca : Arena) : Nat := (ca.clauses.map Clause.units).sum

/-- `ClauseAllocator::reloc`: copy the clause into `to` once, forward later
requests.  Returns the new CRef together with the updated pair of arenas. -/
def Arena.reloc (ca : Arena) (cr : Nat) (toA : Arena) : Nat × Arena × Arena :=
  match (ca.get cr).reloced with
  | some fwd => (fwd, ca, toA)
  | none =>
    let c := ca.get cr
    let (ncr, toA') := toA.alloc c.lits c.learnt
    let toA'' := toA'.setc ncr { c with reloced := none }
    (ncr, ca.setc cr { c with reloced := some ncr }, toA'')

/-! ### Variable-order heap

Modelled from the spec: `mtl/Heap.h` is not in the sources.  Spec §3: a
binary max-heap over variables keyed by activity (comparator
`activity[x] > activity[y]`), with insert, remove-min and decrease-key. -/
structure VHeap where
  heap : List Nat
  /-- `indices[v]`: position of v in `heap`, if present. -/
  idx : List (Option Nat)
deriving DecidableEq, Repr

def VHeap.inHeap (h : VHeap) (v : Nat) : Bool := (h.idx.getD v none).isSome

def VHeap.empty (h : VHeap) : Bool := h.heap.isEmpty

/-- Set position bookkeeping for variable v (growing the index list as needed). -/
def VHeap.setIdx (h : VHeap) (v : Nat) (i : Option Nat) : VHeap :=
  let padded := h.idx ++ List.replicate (v + 1 - h.idx.length) none
  ⟨h.heap, padded.set v i⟩

def heapLeft (i : Nat) : Nat := 2 * i + 1

def heapRight (i : Nat) : Nat := 2 * i + 2

def heapParent (i : Nat) : Nat := (i - 1) / 2

/-- One swap of the two positions i and j, fixing the index map. -/
def VHeap.swap (h : VHeap) (i j : Nat) : VHeap :=
  let vi := h.heap.getD i 0
  let vj := h.heap.getD j 0
  let h1 : VHeap := ⟨(h.heap.set i vj).set j vi, h.idx⟩
  (h1.setIdx vj (some i)).setIdx vi (some j)

/-- `Heap::percolateUp`, driven by fuel bounded by the position (the position
strictly decreases at each step, so `i` steps of fuel always suffice; a fuel
version keeps the function kernel-computable). -/
def VHeap.percolateUpF (lt : Nat → Nat → Bool) : Nat → VHeap → Nat → VHeap
  | _, h, 0 => h
  | 0, h, _ => h
  | fuel + 1, h, i + 1 =>
    let v := h.heap.getD (i + 1) 0
    let p := heapParent (i + 1)
    if lt v (h.heap.getD p 0) then
      VHeap.percolateUpF lt fuel (h.swap (i + 1) p) p
    else h

/-- `Heap::percolateUp`. -/
def VHeap.percolateUp (lt : Nat → Nat → Bool) (h : VHeap) (i : Nat) : VHeap :=
  VHeap.percolateUpF lt i h i

/-- `Heap::percolateDown`, driven by fuel bounded by the heap size. -/
def VHeap.percolateDown (lt : Nat → Nat → Bool) : Nat → VHeap → Nat → VHeap
  | 0, h, _ => h
  | (fuel + 1), h, i =>
    let n := h.heap.length
    if heapLeft i < n then
      let l := heapLeft i
      let r := heapRight i
      let child := if r < n && lt (h.heap.getD r 0) (h.heap.getD l 0) then r else l
      if lt (h.heap.getD child 0) (h.heap.getD i 0) then
        VHeap.percolateDown lt fuel (h.swap i child) child
      else h
    else h

/-- `Heap::insert`. -/
def VHeap.insert (lt : Nat → Nat → Bool) (h : VHeap) (v : Nat) : VHeap :=
  let n := h.heap.length
  let h1 : VHeap := ⟨h.heap ++ [v], h.idx⟩
  let h2 := h1.setIdx v (some n)
  VHeap.percolateUp lt h2 n

/-- `Heap::decrease` (the key moved toward the root). -/
def VHeap.decrease (lt : Nat → Nat → Bool) (h : VHeap) (v : Nat) : VHeap :=
  match h.idx.getD v none with
  | none => h
  | some i => VHeap.percolateUp lt h i

/-- `Heap::removeMin`. -/
def VHeap.removeMin (lt : Nat → Nat → Bool) (h : VHeap) : Nat × VHeap :=
  let x := h.heap.getD 0 0
  let lastv := h.heap.getD (h.heap.length - 1) 0
  let h1 : VHeap := ⟨(h.heap.set 0 lastv).dropLast, h.idx⟩
  let h2 := (h1.setIdx lastv (some 0)).setIdx x none
  if h2.heap.length > 1 then (x, VHeap.percolateDown lt h2.heap.length h2 0)
  else (x, h2)

/-! ### Solver state (src/core/Solver.h) -/
structure VarData where
  /-- `CRef_Undef` becomes `none`. -/
  reason : Option Nat
  level : Nat
deriving DecidableEq, Repr

def mkVarData (cr : Option Nat) (l : Nat) : VarData := ⟨cr, l⟩

structure Watcher where
  cref : Nat
  blocker : Nat
deriving DecidableEq, Repr

/-- The solver state: every field of `CDCL::Solver` that the core operations
read or write.  `vec` fields become lists, `watches` is indexed by the dense
literal code, `order_heap` is the modelled binary heap, and the
counters are `Nat`.  The statistics the solver only prints are kept.
The members `lbdQueue`, `trailQueue` and `sumLBD`, used by `Solver.cc` but
declared in a part of the repository that is not under src/, are modelled
from the spec (§4.9). -/
structure Solver where
  model : List LBool
  verbosity : Int
  var_decay : Dbl
  clause_decay : Dbl
  luby_restart : Bool
  nextReduceDB : Nat
  garbage_frac : Dbl
  starts : Nat
  decisions : Nat
  rnd_decisions : Nat
  propagations : Nat
  conflicts : Nat
  nb_removed_clauses : Nat
  nb_reducedb : Nat
  nb_resolutions : Nat
  nb_lits_in_learnts : Nat
  ok : Bool
  clauses : List Nat
  learnts : List Nat
  cla_inc : Dbl
  activity : List Dbl
  var_inc : Dbl
  watches : List (List Watcher)
  assigns : List LBool
  polarity : List Bool
  trail : List Nat
  trail_lim : List Nat
  vardata : List VarData
  qhead : Nat
  order_heap : VHeap
  progress_estimate : Dbl
  ca : Arena
  seen : List Bool
  levelTagged : List Nat
  FLAG : Nat
  conflict_budget : Int
  propagation_budget : Int
  asynch_interrupt : Bool
  lbdQueue : BQueue
  trailQueue : BQueue
  sumLBD : Nat

/-- `Solver::Solver()` together with the option defaults of `Solver.cc`. -/
def initSolver : Solver where
  model := []
  verbosity := 0
  var_decay := ⟨95, 100⟩
  clause_decay := ⟨999, 1000⟩
  luby_restart := true
  nextReduceDB := 2000
  garbage_frac := ⟨20, 100⟩
  starts := 0
  decisions := 0
  rnd_decisions := 0
  propagations := 0
  conflicts := 0
  nb_removed_clauses := 0
  nb_reducedb := 0
  nb_resolutions := 0
  nb_lits_in_learnts := 0
  ok := true
  clauses := []
  learnts := []
  cla_inc := 1
  activity := []
  var_inc := 1
  watches := []
  assigns := []
  polarity := []
  trail := []
  trail_lim := []
  vardata := []
  qhead := 0
  order_heap := ⟨[], []⟩
  progress_estimate := 0
  ca := ⟨[], 0⟩
  seen := []
  levelTagged := []
  FLAG := 0
  conflict_budget := -1
  propagation_budget := -1
  asynch_interrupt := false
  lbdQueue := BQueue.initSize 50
  trailQueue := BQueue.initSize 5000
  sumLBD := 0

end CDCL

namespace CDCL
namespace Solver

/-- `Solver::value(Var)`. -/
def value (s : Solver) (x : Nat) : LBool := s.assigns.getD x (.lundef)

/-- `Solver::value(Lit)`: `assigns[var(p)] ^ sign(p)`. -/
def valueL (s : Solver) (p : Nat) : LBool := (s.assigns.getD (litVar p) .lundef).lxor (litSign p)

/-- `Solver::reason`. -/
def reason (s : Solver) (x : Nat) : Option Nat := (s.vardata.getD x ⟨none, 0⟩).reason

/-- `Solver::level`. -/
def level (s : Solver) (x : Nat) : Nat := (s.vardata.getD x ⟨none, 0⟩).level

/-- `Solver::decisionLevel`. -/
def decisionLevel (s : Solver) : Nat := s.trail_lim.length

/-- `Solver::nVars`. -/
def nVars (s : Solver) : Nat := s.vardata.length

/-- `Solver::nAssigns`. -/
def nAssigns (s : Solver) : Nat := s.trail.length

/-- The comparator `VarOrderLt`: `activity[x] > activity[y]`. -/
def varOrderLt (s : Solver) (x y : Nat) : Bool := Dbl.blt (s.activity.getD y 0) (s.activity.getD x 0)

/-- `Solver::locked`, with the pointer comparison `ca.lea(reason(var(c[0]))) == &c`
rendered as equality of clause references. -/
def lockedAt (s : Solver) (cr : Nat) : Bool :=
  let c := s.ca.get cr
  s.valueL (c.lits.getD 0 0) == .ltrue && s.reason (litVar (c.lits.getD 0 0)) == some cr

/-- `Solver::withinBudget`. -/
def withinBudget (s : Solver) : Bool :=
  !s.asynch_interrupt &&
    (s.conflict_budget < 0 || (s.conflicts : Int) < s.conflict_budget) &&
    (s.propagation_budget < 0 || (s.propagations : Int) < s.propagation_budget)

/-- `Solver::setConfBudget`. -/
def setConfBudget (s : Solver) (x : Int) : Solver :=
  { s with conflict_budget := (s.conflicts : Int) + x }

/-- `Solver::budgetOff`. -/
def budgetOff (s : Solver) : Solver :=
  { s with conflict_budget := -1, propagation_budget := -1 }

/-- `Solver::newDecisionLevel`. -/
def newDecisionLevel (s : Solver) : Solver :=
  { s with trail_lim := s.trail_lim ++ [s.trail.length] }

/-- `Solver::insertVarOrder`. -/
def insertVarOrder (s : Solver) (x : Nat) : Solver :=
  if s.order_heap.inHeap x then s
  else { s with order_heap := s.order_heap.insert (s.varOrderLt) x }

/-- `Solver::varDecayActivity`. -/
def varDecayActivity (s : Solver) : Solver :=
  { s with var_inc := s.var_inc.mul s.var_decay.inv }

/-- `Solver::claDecayActivity`. -/
def claDecayActivity (s : Solver) : Solver :=
  { s with cla_inc := s.cla_inc.mul s.clause_decay.inv }

/-- `Solver::varBumpActivity` (with rescale at 10¹⁰⁰ and heap decrease-key). -/
def varBumpActivity (s : Solver) (v : Nat) : Solver :=
  let a := (s.activity.getD v 0).add s.var_inc
  let s1 :=
    if Dbl.blt ⟨(10 : Int) ^ 100, 1⟩ a then
      { s with activity := (s.activity.set v a).map (fun x => x.mul ⟨1, 10 ^ 100⟩),
               var_inc := s.var_inc.mul ⟨1, 10 ^ 100⟩ }
    else { s with activity := s.activity.set v a }
  if s1.order_heap.inHeap v then
    { s1 with order_heap := s1.order_heap.decrease (s1.varOrderLt) v }
  else s1

/-- `Solver::claBumpActivity` (with rescale of all learnt activities at 10²⁰). -/
def claBumpActivity (s : Solver) (cr : Nat) : Solver :=
  let c := s.ca.get cr
  let a := c.act.add s.cla_inc
  let s1 := { s with ca := s.ca.setc cr { c with act := a } }
  if Dbl.blt ⟨(10 : Int) ^ 20, 1⟩ a then
    { s1 with
      ca := s1.learnts.foldl
        (fun ar r => ar.setc r { ar.get r with act := (ar.get r).act.mul ⟨1, 10 ^ 20⟩ }) s1.ca,
      cla_inc := s.cla_inc.mul ⟨1, 10 ^ 20⟩ }
  else s1

/-- `Solver::uncheckedEnqueue`: set the value from the literal's sign, store
reason and level, push onto the trail. -/
def uncheckedEnqueue (s : Solver) (p : Nat) (from_ : Option Nat) : Solver :=
  { s with
    assigns := s.assigns.set (litVar p) (lboolOf (!litSign p)),
    vardata := s.vardata.set (litVar p) (mkVarData from_ s.decisionLevel),
    trail := s.trail ++ [p] }

/-- `Solver::newVar`. -/
def newVar (s : Solver) (sgn : Bool) : Nat × Solver :=
  let v := s.nVars
  let s1 : Solver :=
    { s with
      watches := s.watches ++ [[], []],
      assigns := s.assigns ++ [.lundef],
      vardata := s.vardata ++ [mkVarData none 0],
      activity := s.activity ++ [0],
      seen := s.seen ++ [false],
      polarity := s.polarity ++ [sgn],
      levelTagged := s.levelTagged ++ [0] }
  (v, s1.insertVarOrder v)

/-- Update one watch list. -/
def pushWatch (s : Solver) (p : Nat) (w : Watcher) : Solver :=
  { s with watches := s.watches.set p ((s.watches.getD p []) ++ [w]) }

/-- `Solver::attachClause`. -/
def attachClause (s : Solver) (cr : Nat) : Solver :=
  let c := s.ca.get cr
  let s1 := s.pushWatch (litNeg (c.lits.getD 0 0)) ⟨cr, c.lits.getD 1 0⟩
  let s2 := s1.pushWatch (litNeg (c.lits.getD 1 0)) ⟨cr, c.lits.getD 0 0⟩
  if c.learnt then { s2 with nb_lits_in_learnts := s2.nb_lits_in_learnts + c.size } else s2

/-- `Solver::detachClause` in the lazy mode used by `removeClause`: the stale
watcher entries stay in the lists (they bear the clause's deletion mark and
are swept by `cleanAll`), only the learnt-literal statistic changes. -/
def detachClause (s : Solver) (cr : Nat) : Solver :=
  let c := s.ca.get cr
  if c.learnt then { s with nb_lits_in_learnts := s.nb_lits_in_learnts - c.size } else s

/-- `OccLists::cleanAll`, modelled from the spec: sweep watcher entries whose
clause bears the deletion mark. -/
def cleanAll (s : Solver) : Solver :=
  { s with watches := s.watches.map (fun ws => ws.filter (fun w => (s.ca.get w.cref).mark != 1)) }

/-- `Solver::removeClause`. -/
def removeClause (s : Solver) (cr : Nat) : Solver :=
  let s1 := s.detachClause cr
  let s2 :=
    if s1.lockedAt cr then
      let x := litVar ((s1.ca.get cr).lits.getD 0 0)
      let d := mkVarData none (s1.vardata.getD x (mkVarData none 0)).level
      { s1 with vardata := s1.vardata.set x d }
    else s1
  let s3 := { s2 with ca := s2.ca.setc cr { s2.ca.get cr with mark := 1 } }
  { s3 with ca := s3.ca.free cr, nb_removed_clauses := s3.nb_removed_clauses + 1 }

/-- The body of the backward loop of `Solver::cancelUntil` (lines 249-254)
for one trail entry: unassign its variable, save the phase, reinsert into
the heap. -/
def cancelStep (acc : Solver) (p : Nat) : Solver :=
  let x := litVar p
  let acc1 : Solver := { acc with
    assigns := acc.assigns.set x .lundef,
    polarity := acc.polarity.set x (litSign p) }
  acc1.insertVarOrder x

/-- `Solver::cancelUntil`: walk the trail backwards down to `trail_lim[level]`,
unassigning, phase-saving and reinserting into the heap, then reset `qhead`
and truncate `trail` and `trail_lim`. -/
def cancelUntil (s : Solver) (lvl : Nat) : Solver :=
  if s.decisionLevel > lvl then
    let tl := s.trail_lim.getD lvl 0
    let s1 := ((s.trail.drop tl).reverse).foldl cancelStep s
    { s1 with qhead := tl, trail := s.trail.take tl, trail_lim := s.trail_lim.take lvl }
  else s

/-- `Solver::computeLBD`: bump FLAG, count distinct levels via `levelTagged`. -/
def computeLBD (s : Solver) (lits : List Nat) : Nat × Solver :=
  let flag := s.FLAG + 1
  let r := lits.foldl
    (fun acc q =>
      let l := s.level (litVar q)
      if acc.2.getD l 0 != flag then (acc.1 + 1, acc.2.set l flag) else acc)
    (0, s.levelTagged)
  (r.1, { s with FLAG := flag, levelTagged := r.2 })

/-! ### Unit propagation (Solver::propagate) -/
/-- Inner watcher-list loop of `Solver::propagate` for one enqueued literal p.
Mirrors the pointer loop of Solver.cc lines 175-222: `kept` is the prefix
already compacted at `j`, the list argument is the part from `i` on.
Returns the updated solver, the final contents of `watches[p]`, and the
conflict reference if one was found. -/
def propInner (p : Nat) : Solver → List Watcher → List Watcher → Solver × List Watcher × Option Nat
  | s, [], kept => (s, kept, none)
  | s, w :: rest, kept =>
    if s.valueL w.blocker = .ltrue then propInner p s rest (kept ++ [w])
    else
      let cr := w.cref
      let c0 := s.ca.get cr
      let false_lit := litNeg p
      let c := if c0.lits.getD 0 0 = false_lit
               then { c0 with lits := (c0.lits.set 0 (c0.lits.getD 1 0)).set 1 false_lit }
               else c0
      let s1 : Solver := { s with ca := s.ca.setc cr c }
      let first := c.lits.getD 0 0
      let w' : Watcher := ⟨cr, first⟩
      if first ≠ w.blocker ∧ s1.valueL first = .ltrue then propInner p s1 rest (kept ++ [w'])
      else
        match (c.lits.drop 2).findIdx? (fun q => s1.valueL q != .lfalse) with
        | some i =>
          let k := i + 2
          let ck := c.lits.getD k 0
          let c2 := { c with lits := (c.lits.set 1 ck).set k false_lit }
          let s2 : Solver := { s1 with ca := s1.ca.setc cr c2 }
          let s3 := s2.pushWatch (litNeg ck) w'
          propInner p s3 rest kept
        | none =>
          if s1.valueL first = .lfalse then
            ({ s1 with qhead := s1.trail.length }, kept ++ [w'] ++ rest, some cr)
          else
            propInner p (s1.uncheckedEnqueue first (some cr)) rest (kept ++ [w'])

/-- Outer loop of `Solver::propagate`, with fuel (`none` = fuel exhausted;
in well-formed states each round assigns fresh variables, so any fuel of at
least `nVars + |trail|` suffices). -/
def propLoop : Nat → Solver → Option (Option Nat × Solver)
  | 0, s => if s.qhead < s.trail.length then none else some (none, s)
  | fuel + 1, s =>
    if s.qhead < s.trail.length then
      let p := s.trail.getD s.qhead 0
      let s1 : Solver := { s with qhead := s.qhead + 1, propagations := s.propagations + 1 }
      let ws := s1.watches.getD p []
      let r := propInner p s1 ws []
      let s3 : Solver := { r.1 with watches := r.1.watches.set p r.2.1 }
      match r.2.2 with
      | some cr => some (some cr, s3)
      | none => propLoop fuel s3
    else some (none, s)

/-- Fuel that suffices for `propagate` in any well-formed state. -/
def propFuel (s : Solver) : Nat := s.nVars + s.trail.length + 1

/-- `Solver::propagate`: clean the watch lists, then process the queue. -/
def propagate (fuel : Nat) (s : Solver) : Option (Option Nat × Solver) :=
  propLoop fuel s.cleanAll

/-- The while loop of `Solver::pickBranchLit`: pop the heap until an
unassigned variable appears; `none` when the heap runs empty.  Fuel bounded
by the heap size (each `removeMin` shrinks the heap by one, so
`|heap| + 1` steps always suffice; the fuel keeps the function
kernel-computable). -/
def pickLoopF : Nat → Solver → Option Nat × Solver
  | 0, s => (none, s)
  | fuel + 1, s =>
    if s.order_heap.empty then (none, s)
    else
      let r := s.order_heap.removeMin s.varOrderLt
      let s' : Solver := { s with order_heap := r.2 }
      if s'.value r.1 = .lundef then (some r.1, s')
      else pickLoopF fuel s'

/-- `Solver::pickBranchLit`. -/
def pickBranchLit (s : Solver) : Option Nat × Solver :=
  match pickLoopF (s.order_heap.heap.length + 1) s with
  | (none, s') => (none, s')
  | (some v, s') =>
    (some (mkLit v (s'.polarity.getD v false)),
     { s' with decisions := s'.decisions + 1 })

/-! ### Adding clauses (Solver::addClause_) -/
/-- The simplification scan of `Solver::addClause_` (Solver.cc lines 429-434)
over the sorted literal list.  `p` is the last literal kept (`lit_Undef`
becomes `none`), `kept` the compacted prefix `ps[0..j-1]`.  Returns
`(sat, kept)`: `sat` is true when a true literal or the complement of `p`
was met (the early `return true`). -/
def addScan (s : Solver) : List Nat → Option Nat → List Nat → Bool × List Nat
  | [], _, kept => (false, kept)
  | q :: rest, p, kept =>
    if s.valueL q = .ltrue ∨ some q = p.map litNeg then (true, kept)
    else if s.valueL q ≠ .lfalse ∧ some q ≠ p then addScan s rest (some q) (kept ++ [q])
    else addScan s rest p kept

/-- `sort(ps)` of `addClause_`; mtl/Sort.h is not in the sources, so the sort
is modelled from the spec as sorting the literal codes ascending (for `Nat`
codes every correct sort yields this same list). -/
def sortLits (ps : List Nat) : List Nat := List.insertionSort (· ≤ ·) ps

/-- `Solver::addClause_`.  Returns (result, final contents of the caller's
vector ps, new state); `none` only when the level-0 propagation after a unit
clause runs out of fuel (impossible in well-formed states).
On the early satisfied return the vector holds the compacted prefix followed
by the untouched rest of the sorted array (no shrink happened); on the other
paths it was shrunk to the kept literals. -/
def addClause_ (s : Solver) (ps : List Nat) : Option (Bool × List Nat × Solver) :=
  if ¬ s.ok then some (false, ps, s)
  else
    let sorted := sortLits ps
    let r := addScan s sorted none []
    if r.1 then some (true, r.2 ++ sorted.drop r.2.length, s)
    else
      match hk : r.2 with
      | [] => some (false, [], { s with ok := false })
      | [l] =>
        let s1 := s.uncheckedEnqueue l none
        match propagate (propFuel s1) s1 with
        | none => none
        | some (confl, s2) =>
          let okNew := confl = none
          some (okNew, [l], { s2 with ok := okNew })
      | l1 :: l2 :: rest =>
        let (cr, ca') := s.ca.alloc (l1 :: l2 :: rest) false
        let s1 : Solver := { s with ca := ca', clauses := s.clauses ++ [cr] }
        some (true, l1 :: l2 :: rest, s1.attachClause cr)

/-! ### Conflict analysis (Solver::analyze) -/
/-- The literal scan of one `analyze` iteration (Solver.cc lines 289-300):
fold over the clause literals from the start index, threading
(state, resolution counter, out_learnt). -/
def analyzeLits (s : Solver) (lits : List Nat) (nbRes : Nat) (out : List Nat) :
    Solver × Nat × List Nat :=
  lits.foldl
    (fun acc q =>
      let sA := acc.1
      if ¬ (sA.seen.getD (litVar q) false) ∧ sA.level (litVar q) > 0 then
        let s1 := sA.varBumpActivity (litVar q)
        let s2 : Solver := { s1 with seen := s1.seen.set (litVar q) true }
        if s2.level (litVar q) ≥ s2.decisionLevel then (s2, acc.2.1 + 1, acc.2.2)
        else (s2, acc.2.1, acc.2.2 ++ [q])
      else acc)
    (s, nbRes, out)

/-- `while(!seen[var(trail[index--])]);` — the greatest j ≤ i with
`seen[var(trail[j])]`, `none` if there is none (the C++ loop would
underrun the trail). -/
def seenIndex (s : Solver) : Nat → Option Nat
  | 0 => if s.seen.getD (litVar (s.trail.getD 0 0)) false then some 0 else none
  | i + 1 =>
    if s.seen.getD (litVar (s.trail.getD (i + 1) 0)) false then some (i + 1)
    else seenIndex s i

/-- The do-while of `Solver::analyze`, with fuel. -/
def analyzeLoop : Nat → Solver → Option Nat → Option Nat → Nat → Nat → List Nat →
    Option (Solver × Nat × List Nat)
  | 0, _, _, _, _, _, _ => none
  | _ + 1, _, none, _, _, _, _ => none
  | fuel + 1, s, some cr, p, index, nbRes, out =>
    let c := (s.ca.get cr)
    let s0 : Solver := { s with nb_resolutions := s.nb_resolutions + 1 }
    let s1 := if c.learnt then s0.claBumpActivity cr else s0
    let j0 := if p.isNone then 0 else 1
    let r := analyzeLits s1 (c.lits.drop j0) nbRes out
    match seenIndex r.1 index with
    | none => none
    | some j =>
      let pNew := r.1.trail.getD j 0
      let conflNew := r.1.reason (litVar pNew)
      let s3 : Solver := { r.1 with seen := r.1.seen.set (litVar pNew) false }
      let nbRes2 := r.2.1 - 1
      if nbRes2 > 0 then analyzeLoop fuel s3 conflNew (some pNew) (j - 1) nbRes2 r.2.2
      else some (s3, pNew, r.2.2)

/-- The backtrack-level selection of `analyze` (Solver.cc lines 315-318):
index of the first literal from position 2 on whose level beats
`out_learnt[1]`, starting from `max_i = 1`. -/
def findMaxLevelIdx (s : Solver) (out : List Nat) : Nat :=
  (List.range' 2 (out.length - 2)).foldl
    (fun mi i =>
      if s.level (litVar (out.getD i 0)) > s.level (litVar (out.getD mi 0)) then i else mi)
    1

/-- Fuel that suffices for the `analyze` loop in any well-formed state. -/
def analyzeFuel (s : Solver) : Nat := s.trail.length + 1

/-- `Solver::analyze`: returns (out_learnt, out_btlevel, lbd, new state). -/
def analyze (fuel : Nat) (s : Solver) (confl : Nat) :
    Option (List Nat × Nat × Nat × Solver) :=
  match analyzeLoop fuel s (some confl) none (s.trail.length - 1) 0 [0] with
  | none => none
  | some (s1, p, out1) =>
    let outA := out1.set 0 (litNeg p)
    let r :=
      if outA.length = 1 then (0, outA)
      else
        let mi := findMaxLevelIdx s1 outA
        let pl := outA.getD mi 0
        ((s1.level (litVar pl)), (outA.set mi (outA.getD 1 0)).set 1 pl)
    let lb := s1.computeLBD r.2
    let s3 : Solver :=
      { lb.2 with seen := r.2.foldl (fun sn q => sn.set (litVar q) false) lb.2.seen }
    some (r.2, r.1, lb.1, s3)

/-! ### Learnt-database reduction (Solver::reduceDB) -/
/-- The comparator `reduceDB_lt` of Solver.cc lines 337-361. -/
def reduceDBlt (ca : Arena) (x y : Nat) : Bool :=
  if (ca.get x).size > 2 ∧ (ca.get y).size = 2 then true
  else if (ca.get y).size > 2 ∧ (ca.get x).size = 2 then false
  else if (ca.get x).size = 2 ∧ (ca.get y).size = 2 then false
  else if (ca.get x).lbd > (ca.get y).lbd then true
  else if (ca.get x).lbd < (ca.get y).lbd then false
  else Dbl.blt (ca.get x).act (ca.get y).act

/-- `sort(learnts, reduceDB_lt(ca))`; mtl/Sort.h is not in the sources, so
the sort is modelled from the spec (§4.7: sort by the comparator). -/
def sortLearnts (s : Solver) : List Nat :=
  List.insertionSort (fun x y => ¬ reduceDBlt s.ca y x) s.learnts

/-- The filter loop of `Solver::reduceDB` (lines 375-381) over the sorted,
indexed list; `n` is the length of `learnts`. -/
def reduceDBLoop (n : Nat) : Solver → List (Nat × Nat) → List Nat → Solver × List Nat
  | s, [], kept => (s, kept)
  | s, (i, cr) :: rest, kept =>
    if (s.ca.get cr).size > 2 ∧ ¬ s.lockedAt cr ∧ i < n / 2 then
      reduceDBLoop n (s.removeClause cr) rest kept
    else reduceDBLoop n s rest (kept ++ [cr])

/-! ### Arena garbage collection (Solver::relocAll / garbageCollect) -/
/-- Relocate a list of clause references in order, threading both arenas. -/
def relocList (ca toA : Arena) (l : List Nat) : Arena × Arena × List Nat :=
  l.foldl
    (fun acc cr =>
      let r := Arena.reloc acc.1 cr acc.2.1
      (r.2.1, r.2.2, acc.2.2 ++ [r.1]))
    (ca, toA, [])

/-- `Solver::relocAll`. -/
def relocAll (s : Solver) (toA : Arena) : Solver × Arena :=
  let s0 := s.cleanAll
  let rw := (List.range (2 * s0.nVars)).foldl
    (fun (acc : Arena × Arena × List (List Watcher)) pl =>
      let ws := s0.watches.getD pl []
      let r := relocList acc.1 acc.2.1 (ws.map Watcher.cref)
      (r.1, r.2.1, acc.2.2 ++ [List.zipWith (fun w n => Watcher.mk n w.blocker) ws r.2.2]))
    (s0.ca, toA, [])
  let rv := s0.trail.foldl
    (fun (acc : List VarData × Arena × Arena) pl =>
      let v := litVar pl
      match (acc.1.getD v (mkVarData none 0)).reason with
      | none => acc
      | some rc =>
        let c := acc.2.1.get rc
        let isLocked := (s0.valueL (c.lits.getD 0 0) == LBool.ltrue) &&
          ((acc.1.getD (litVar (c.lits.getD 0 0)) (mkVarData none 0)).reason == some rc)
        if c.reloced.isSome || isLocked then
          let r := Arena.reloc acc.2.1 rc acc.2.2
          (acc.1.set v (mkVarData (some r.1) (acc.1.getD v (mkVarData none 0)).level),
           r.2.1, r.2.2)
        else acc)
    (s0.vardata, rw.1, rw.2.1)
  let rl := relocList rv.2.1 rv.2.2 s0.learnts
  let rc := relocList rl.1 rl.2.1 s0.clauses
  ({ s0 with watches := rw.2.2, vardata := rv.1, learnts := rl.2.2,
             clauses := rc.2.2, ca := rc.1 }, rc.2.1)

/-- `Solver::garbageCollect`: relocate into a fresh arena and move it in. -/
def garbageCollect (s : Solver) : Solver :=
  let r := s.relocAll ⟨[], 0⟩
  { r.1 with ca := r.2 }

/-- `Solver::checkGarbage`. -/
def checkGarbage (s : Solver) : Solver :=
  if Dbl.blt ((Dbl.ofNat s.ca.usize).mul s.garbage_frac) (Dbl.ofNat s.ca.wasted) then s.garbageCollect else s

/-- `Solver::reduceDB`. -/
def reduceDB (s : Solver) : Solver :=
  let s0 : Solver := { s with nb_reducedb := s.nb_reducedb + 1 }
  let sorted := sortLearnts s0
  let r := reduceDBLoop sorted.length s0 sorted.enum []
  let s2 : Solver := { r.1 with learnts := r.2 }
  s2.checkGarbage

/-! ### Search driver and solve loop (Solver::search / Solver::solve_) -/
/-- One iteration of the `for(;;)` loop of `Solver::search` (Solver.cc lines
27-87).  `.inl` continues with the updated state, `.inr` is a return;
`none` is exhausted inner fuel (well-formed states never hit it).  The
`nof_conflicts` argument of `search` is never read by the loop body, so it
does not appear.  The intermediate-statistics printing (line 66) is I/O only
and is dropped. -/
def searchStep (s : Solver) : Option (Sum Solver (LBool × Solver)) :=
  match propagate (propFuel s) s with
  | none => none
  | some (some confl, s1) =>
    let s2 : Solver := { s1 with conflicts := s1.conflicts + 1 }
    if s2.decisionLevel = 0 then some (.inr (.lfalse, s2))
    else
      let s3 : Solver := { s2 with trailQueue := s2.trailQueue.push s2.trail.length }
      let s4 : Solver :=
        if s3.conflicts > 10000 ∧ s3.lbdQueue.isvalid ∧
            Dbl.blt ((⟨14, 10⟩ : Dbl).mul s3.trailQueue.getavg) (Dbl.ofNat s3.trail.length)
        then { s3 with lbdQueue := s3.lbdQueue.fastclear } else s3
      match analyze (analyzeFuel s4) s4 confl with
      | none => none
      | some (learnt, btlevel, lbd, s5) =>
        let s6 : Solver := { s5 with lbdQueue := s5.lbdQueue.push lbd,
                                     sumLBD := s5.sumLBD + lbd }
        let s7 := s6.cancelUntil btlevel
        let s8 :=
          if learnt.length = 1 then s7.uncheckedEnqueue (learnt.getD 0 0) none
          else
            let a := s7.ca.alloc learnt true
            let s7a : Solver := { s7 with ca := a.2, learnts := s7.learnts ++ [a.1] }
            let s7b := (s7a.attachClause a.1).claBumpActivity a.1
            let s7c := s7b.uncheckedEnqueue (learnt.getD 0 0) (some a.1)
            { s7c with ca := s7c.ca.setc a.1 { s7c.ca.get a.1 with lbd := lbd } }
        some (.inl s8.varDecayActivity.claDecayActivity)
  | some (none, s1) =>
    if s1.lbdQueue.isvalid ∧
        Dbl.blt ⟨(s1.sumLBD : Int), s1.conflicts⟩ (s1.lbdQueue.getavg.mul ⟨8, 10⟩) then
      some (.inr (.lundef, ({ s1 with lbdQueue := s1.lbdQueue.fastclear } : Solver).cancelUntil 0))
    else
      let s2 :=
        if s1.conflicts ≥ s1.nextReduceDB then
          let r := s1.reduceDB
          { r with nextReduceDB := r.conflicts + 2000 + 1000 * r.nb_reducedb }
        else s1
      let pr := s2.pickBranchLit
      match pr.1 with
      | none => some (.inr (.ltrue, pr.2))
      | some p => some (.inl ((pr.2.newDecisionLevel).uncheckedEnqueue p none))

/-- `Solver::search` with fuel for the loop iterations. -/
def search (fuel : Nat) (s : Solver) : Option (LBool × Solver) :=
  match fuel with
  | 0 => none
  | fuel + 1 =>
    match searchStep s with
    | none => none
    | some (.inl s') => search fuel s'
    | some (.inr r) => some r

/-- The restart loop of `Solver::solve_` (lines 116-122): each round bumps
`starts` and runs one `search`; the loop breaks when `withinBudget()` fails
after the call and otherwise continues while the status is Undef.  The
returned `Nat` counts the `search` calls (ghost instrumentation; the
source computes `rest_base`, but `search` never reads its
`nof_conflicts` parameter, so the Luby computation has no effect on state).
-/
def solveLoop (rfuel sfuel : Nat) (nCalls : Nat) (s : Solver) :
    Option (LBool × Nat × Solver) :=
  match rfuel with
  | 0 => none
  | rfuel + 1 =>
    let s1 : Solver := { s with starts := s.starts + 1 }
    match search sfuel s1 with
    | none => none
    | some (status, s2) =>
      if ¬ s2.withinBudget then some (status, nCalls + 1, s2)
      else if status = .lundef then solveLoop rfuel sfuel (nCalls + 1) s2
      else some (status, nCalls + 1, s2)

/-- `Solver::solve_`: clear the model, run the restart loop, copy the model
on True, backjump to level 0.  The second component counts `search` calls. -/
def solve_ (rfuel sfuel : Nat) (s : Solver) : Option (LBool × Nat × Solver) :=
  let s0 : Solver := { s with model := [] }
  if ¬ s0.ok then some (.lfalse, 0, s0)
  else
    match solveLoop rfuel sfuel 0 s0 with
    | none => none
    | some (status, n, s1) =>
      let s2 : Solver :=
        if status = .ltrue then
          { s1 with model := (List.range s1.nVars).map (fun i => s1.value i) }
        else s1
      some (status, n, s2.cancelUntil 0)

/-- `Solver::solve()`: `budgetOff` then `solve_`. -/
def solve (rfuel sfuel : Nat) (s : Solver) : Option (LBool × Nat × Solver) :=
  solve_ rfuel sfuel s.budgetOff

end Solver
end CDCL

namespace CDCL
open Solver

/-! ### Demonstration states used by concrete runs -/
/-- A fresh solver with two variables, as the DIMACS front end would create
for `p cnf 2 0` (`newVar()` uses the default polarity `true`). -/
def demoVars2 : Solver := (((initSolver.newVar true).2).newVar true).2

/-- `demoVars2` after one decision on literal 1 (the first branching literal
`mkLit 0 (polarity 0) = 1`). -/
def demoDecided : Solver := (demoVars2.newDecisionLevel).uncheckedEnqueue 1 none

end CDCL

namespace CDCL

/-! ### Lemmas about removeClause and reduceDB -/
/-- No clause of the arena carries a stale forwarding reference (true between
garbage collections: `reloc` only marks during a collection and the old arena
is discarded afterwards). -/
def Arena.cleanForward (ca : Arena) : Prop := ∀ cr, (ca.get cr).reloced = none

end CDCL

namespace CDCL
namespace Solver

/-- The drop test of `reduceDB` for the clause at sorted index `ic.1` with
reference `ic.2`: size above two, not locked, in the first half. -/
def dropCond (s : Solver) (n : Nat) (ic : Nat × Nat) : Bool :=
  decide (2 < (s.ca.get ic.2).size) && !(s.lockedAt ic.2) && decide (ic.1 < n / 2)

end Solver
end CDCL

namespace CDCL

/-- Invariant of relocation: the working arena still holds every clause's
original literals, and every forwarding reference points into the target
arena at a copy with the same literals. -/
def RelocInv (base ca toA : Arena) : Prop :=
  (∀ cr, (ca.get cr).lits = (base.get cr).lits) ∧
  (∀ cr fwd, (ca.get cr).reloced = some fwd →
      fwd < toA.clauses.length ∧ (toA.get fwd).lits = (base.get cr).lits)

/-- A synthetic state with two stored learnt clauses: one ternary (sorted to
index 0, hence dropped) and one binary (always kept); reduction here also
triggers a garbage collection. -/
def demoLearnts : Solver :=
  { demoVars2 with
    ca := ⟨[⟨[0, 2, 5], true, 0, 0, 0, none⟩, ⟨[1, 3], true, 0, 0, 0, none⟩], 0⟩,
    learnts := [0, 1] }

/-! ### Claim C8 (tautological clauses) -/
/-- Negation on the three-valued lattice (flips True/False, keeps Undef). -/
def LBool.lnot : LBool → LBool
  | .ltrue => .lfalse
  | .lfalse => .ltrue
  | .lundef => (.lundef)

/-- `demoVars2` after ingesting the unit clause (x₀): variable 0 is true at
level 0. -/
def demoUnit : Solver :=
  match demoVars2.addClause_ [0] with
  | some r => r.2.2
  | none => demoVars2

/-- Run `addClause_`, keeping the new state (demo plumbing). -/
def Solver.addCl (s : Solver) (ps : List Nat) : Solver :=
  ((s.addClause_ ps).getD (false, [], s)).2.2

/-- The four-clause unsatisfiable demo instance over two variables:
(x0 ∨ x1), (¬x0 ∨ x1), (x0 ∨ ¬x1), (¬x0 ∨ ¬x1). -/
def demoUnsat : Solver :=
  (((demoVars2.addCl [0, 2]).addCl [1, 2]).addCl [0, 3]).addCl [1, 3]

/-- The demo instance after deciding ¬x0 at level 1. -/
def demoDecidedU : Solver := (demoUnsat.newDecisionLevel).uncheckedEnqueue 1 none

/-- The demo instance at its first conflict (clause 2 of the arena). -/
def demoConflicted : Solver :=
  ((Solver.propagate (Solver.propFuel demoDecidedU) demoDecidedU).getD (none, initSolver)).2

/-- Generic first-argmax fold, the shape of `findMaxLevelIdx`. -/
def argmaxFold (f : Nat → Nat) (a k mi0 : Nat) : Nat :=
  (List.range' a k).foldl (fun mi i => if f i > f mi then i else mi) mi0

/-- The invariant behind claim C9: the Glucose LBD queue never holds more
elements than conflicts have occurred, and its capacity is positive. -/
def C9Inv (s : Solver) : Prop :=
  s.lbdQueue.elems.length ≤ s.conflicts ∧ 0 < s.lbdQueue.cap

/-- The demo instance with the conflict budget set to zero. -/
def demoBudget : Solver := demoUnsat.setConfBudget 0

/-- The result of the single `search` call `solve_` makes on `demoBudget`. -/
def demoBudgetRun : LBool × Solver :=
  (Solver.search 4 { demoBudget with starts := demoBudget.starts + 1 }).getD
    (.lundef, initSolver)

end CDCL

/-! ## Theorems -/

namespace CDCL

theorem litNeg_mkLit (v : Nat) (s : Bool) : litNeg (mkLit v s) = mkLit v (!s) := by
  cases s <;> simp only [litNeg, mkLit, Bool.not_true, Bool.not_false,
    Bool.toNat_true, Bool.toNat_false] <;> split <;> omega

theorem litVar_litNeg (p : Nat) : litVar (litNeg p) = litVar p := by
  simp only [litNeg, litVar]
  split <;> omega

theorem litNeg_litNeg (p : Nat) : litNeg (litNeg p) = p := by
  simp only [litNeg]
  split <;> split <;> omega

theorem litSign_litNeg (p : Nat) : litSign (litNeg p) = !litSign p := by
  simp only [litNeg, litSign]
  split <;> rename_i h <;> rw [Bool.eq_iff_iff] <;> simp <;> omega

end CDCL

namespace CDCL
namespace Solver

/-! ### Branching (Solver::pickBranchLit) -/
theorem VHeap.swap_heap_length (h : VHeap) (i j : Nat) :
    (h.swap i j).heap.length = h.heap.length := by
  simp [VHeap.swap, VHeap.setIdx]

theorem VHeap.percolateUpF_heap_length (lt : Nat → Nat → Bool) :
    ∀ fuel i (h : VHeap), (VHeap.percolateUpF lt fuel h i).heap.length = h.heap.length := by
  intro fuel
  induction fuel with
  | zero => intro i h; cases i <;> rfl
  | succ n ih =>
    intro i h
    cases i with
    | zero => rfl
    | succ j =>
      rw [VHeap.percolateUpF]
      split
      · rw [ih]
        exact VHeap.swap_heap_length h _ _
      · rfl

theorem VHeap.percolateUp_heap_length (lt : Nat → Nat → Bool) (i : Nat) (h : VHeap) :
    (VHeap.percolateUp lt h i).heap.length = h.heap.length :=
  VHeap.percolateUpF_heap_length lt i i h

theorem VHeap.percolateDown_heap_length (lt : Nat → Nat → Bool) :
    ∀ fuel (h : VHeap) i, (VHeap.percolateDown lt fuel h i).heap.length = h.heap.length := by
  intro fuel
  induction fuel with
  | zero => intro h i; rfl
  | succ n ih =>
    intro h i
    rw [VHeap.percolateDown]
    simp only
    split
    · split <;> split <;> first
        | (rw [ih]; exact VHeap.swap_heap_length h _ _)
        | rfl
    · rfl

theorem VHeap.removeMin_heap_length (lt : Nat → Nat → Bool) (h : VHeap) :
    (VHeap.removeMin lt h).2.heap.length = h.heap.length - 1 := by
  simp only [VHeap.removeMin, VHeap.setIdx]
  split
  · rw [VHeap.percolateDown_heap_length]
    simp
  · simp

end Solver
end CDCL

namespace CDCL

/-! ### List and heap helper lemmas -/
theorem getD_set_self {α : Type} (l : List α) (i : Nat) (a d : α) (h : i < l.length) :
    (l.set i a).getD i d = a := by
  simp [List.getD_eq_getElem?_getD, List.getElem?_set_self, h]

theorem getD_set_ne {α : Type} (l : List α) (i j : Nat) (a d : α) (hij : i ≠ j) :
    (l.set i a).getD j d = l.getD j d := by
  simp [List.getD_eq_getElem?_getD, List.getElem?_set_ne hij]

theorem VHeap.setIdx_heap (h : VHeap) (v : Nat) (i : Option Nat) :
    (h.setIdx v i).heap = h.heap := rfl

theorem VHeap.setIdx_getD_self (h : VHeap) (v : Nat) (i : Option Nat) :
    (h.setIdx v i).idx.getD v none = i := by
  have hlen : v < (h.idx ++ List.replicate (v + 1 - h.idx.length) none).length := by
    simp [List.length_append, List.length_replicate]
    omega
  exact getD_set_self _ v i none hlen

theorem VHeap.setIdx_getD_ne (h : VHeap) (v x : Nat) (i : Option Nat) (hxv : x ≠ v) :
    (h.setIdx v i).idx.getD x none = h.idx.getD x none := by
  simp only [VHeap.setIdx]
  rw [getD_set_ne _ _ _ _ _ (fun he => hxv he.symm)]
  by_cases hx : x < h.idx.length
  · simp [List.getD_eq_getElem?_getD, List.getElem?_append, hx]
  · have h1 : h.idx.getD x none = none := by
      rw [List.getD_eq_getElem?_getD, List.getElem?_eq_none (by omega)]
      rfl
    rw [h1]
    by_cases hx2 : x < (h.idx ++ List.replicate (v + 1 - h.idx.length) none).length
    · rw [List.getD_eq_getElem?_getD, List.getElem?_append_right (by omega)]
      rw [List.getElem?_replicate]
      simp only [List.length_append, List.length_replicate] at hx2
      rw [if_pos (by omega)]
      rfl
    · rw [List.getD_eq_getElem?_getD, List.getElem?_eq_none (by omega)]
      rfl

theorem VHeap.setIdx_inHeap (h : VHeap) (v x : Nat) (i : Option Nat)
    (hx : (x = v ∧ i.isSome) ∨ (x ≠ v ∧ h.inHeap x = true)) :
    (h.setIdx v i).inHeap x = true := by
  rcases hx with ⟨he, hi⟩ | ⟨hne, hin⟩
  · subst he
    simp only [VHeap.inHeap]
    rw [VHeap.setIdx_getD_self]
    exact hi
  · simp only [VHeap.inHeap] at hin ⊢
    rw [VHeap.setIdx_getD_ne _ _ _ _ hne]
    exact hin

theorem VHeap.swap_inHeap (h : VHeap) (i j x : Nat) (hx : h.inHeap x = true) :
    (h.swap i j).inHeap x = true := by
  simp only [VHeap.swap]
  apply VHeap.setIdx_inHeap
  by_cases h1 : x = h.heap.getD i 0
  · left; exact ⟨h1, rfl⟩
  · right
    refine ⟨h1, ?_⟩
    apply VHeap.setIdx_inHeap
    by_cases h2 : x = h.heap.getD j 0
    · left; exact ⟨h2, rfl⟩
    · right; exact ⟨h2, hx⟩

theorem VHeap.percolateUpF_inHeap (lt : Nat → Nat → Bool) :
    ∀ fuel i (h : VHeap) x, h.inHeap x = true →
      (VHeap.percolateUpF lt fuel h i).inHeap x = true := by
  intro fuel
  induction fuel with
  | zero => intro i h x hx; cases i <;> exact hx
  | succ n ih =>
    intro i h x hx
    cases i with
    | zero => exact hx
    | succ j =>
      rw [VHeap.percolateUpF]
      split
      · exact ih _ _ x (VHeap.swap_inHeap h _ _ x hx)
      · exact hx

theorem VHeap.percolateUp_inHeap (lt : Nat → Nat → Bool) (i : Nat) (h : VHeap) (x : Nat)
    (hx : h.inHeap x = true) : (VHeap.percolateUp lt h i).inHeap x = true :=
  VHeap.percolateUpF_inHeap lt i i h x hx

theorem VHeap.insert_inHeap_self (lt : Nat → Nat → Bool) (h : VHeap) (v : Nat) :
    (h.insert lt v).inHeap v = true := by
  simp only [VHeap.insert]
  apply VHeap.percolateUp_inHeap
  exact VHeap.setIdx_inHeap _ _ _ _ (Or.inl ⟨rfl, rfl⟩)

theorem VHeap.insert_inHeap_mono (lt : Nat → Nat → Bool) (h : VHeap) (v x : Nat)
    (hx : h.inHeap x = true) : (h.insert lt v).inHeap x = true := by
  simp only [VHeap.insert]
  apply VHeap.percolateUp_inHeap
  apply VHeap.setIdx_inHeap
  by_cases hxv : x = v
  · left; exact ⟨hxv, rfl⟩
  · right; exact ⟨hxv, hx⟩

theorem Solver.insertVarOrder_inHeap_self (s : Solver) (v : Nat) :
    (s.insertVarOrder v).order_heap.inHeap v = true := by
  simp only [Solver.insertVarOrder]
  split
  · assumption
  · exact VHeap.insert_inHeap_self _ _ _

theorem Solver.insertVarOrder_inHeap_mono (s : Solver) (v x : Nat)
    (hx : s.order_heap.inHeap x = true) : (s.insertVarOrder v).order_heap.inHeap x = true := by
  simp only [Solver.insertVarOrder]
  split
  · exact hx
  · exact VHeap.insert_inHeap_mono _ _ _ _ hx

end CDCL

namespace CDCL
namespace Solver

/-! ### Lemmas about cancelUntil -/
theorem insertVarOrder_assigns (s : Solver) (x : Nat) :
    (s.insertVarOrder x).assigns = s.assigns := by
  unfold insertVarOrder; split <;> rfl

theorem insertVarOrder_polarity (s : Solver) (x : Nat) :
    (s.insertVarOrder x).polarity = s.polarity := by
  unfold insertVarOrder; split <;> rfl

theorem cancelStep_assigns_length (acc : Solver) (p : Nat) :
    (cancelStep acc p).assigns.length = acc.assigns.length := by
  simp [cancelStep, insertVarOrder_assigns]

theorem cancelStep_polarity_length (acc : Solver) (p : Nat) :
    (cancelStep acc p).polarity.length = acc.polarity.length := by
  simp [cancelStep, insertVarOrder_polarity]

theorem cancelFold_assigns_length (l : List Nat) :
    ∀ acc : Solver, (l.foldl cancelStep acc).assigns.length = acc.assigns.length := by
  induction l with
  | nil => intro acc; rfl
  | cons p rest ih =>
    intro acc
    rw [List.foldl_cons, ih, cancelStep_assigns_length]

theorem cancelFold_polarity_length (l : List Nat) :
    ∀ acc : Solver, (l.foldl cancelStep acc).polarity.length = acc.polarity.length := by
  induction l with
  | nil => intro acc; rfl
  | cons p rest ih =>
    intro acc
    rw [List.foldl_cons, ih, cancelStep_polarity_length]

theorem cancelStep_getD_ne (acc : Solver) (p : Nat) (x : Nat) (hx : x ≠ litVar p) :
    (cancelStep acc p).assigns.getD x .lundef = acc.assigns.getD x .lundef ∧
    (cancelStep acc p).polarity.getD x false = acc.polarity.getD x false := by
  simp only [cancelStep, insertVarOrder_assigns, insertVarOrder_polarity]
  exact ⟨getD_set_ne _ _ _ _ _ (fun he => hx he.symm),
         getD_set_ne _ _ _ _ _ (fun he => hx he.symm)⟩

theorem cancelFold_getD_ne (x : Nat) (l : List Nat) :
    ∀ acc : Solver, x ∉ l.map litVar →
      (l.foldl cancelStep acc).assigns.getD x .lundef = acc.assigns.getD x .lundef ∧
      (l.foldl cancelStep acc).polarity.getD x false = acc.polarity.getD x false := by
  induction l with
  | nil => intro acc _; exact ⟨rfl, rfl⟩
  | cons p rest ih =>
    intro acc hx
    simp only [List.map_cons, List.mem_cons] at hx
    push_neg at hx
    rw [List.foldl_cons]
    have h1 := ih (cancelStep acc p) (by simpa using hx.2)
    have h2 := cancelStep_getD_ne acc p x hx.1
    exact ⟨h1.1.trans h2.1, h1.2.trans h2.2⟩

theorem cancelStep_inHeap_mono (acc : Solver) (p x : Nat)
    (hx : acc.order_heap.inHeap x = true) :
    (cancelStep acc p).order_heap.inHeap x = true := by
  simp only [cancelStep]
  exact insertVarOrder_inHeap_mono _ _ _ hx

theorem cancelFold_inHeap_mono (x : Nat) (l : List Nat) :
    ∀ acc : Solver, acc.order_heap.inHeap x = true →
      (l.foldl cancelStep acc).order_heap.inHeap x = true := by
  induction l with
  | nil => intro acc hx; exact hx
  | cons p rest ih =>
    intro acc hx
    rw [List.foldl_cons]
    exact ih _ (cancelStep_inHeap_mono acc p x hx)

theorem cancelFold_main (l : List Nat) :
    ∀ acc : Solver, (l.map litVar).Nodup →
      (∀ p ∈ l, litVar p < acc.assigns.length ∧ litVar p < acc.polarity.length) →
      ∀ p ∈ l,
        (l.foldl cancelStep acc).assigns.getD (litVar p) .lundef = .lundef ∧
        (l.foldl cancelStep acc).polarity.getD (litVar p) false = litSign p ∧
        (l.foldl cancelStep acc).order_heap.inHeap (litVar p) = true := by
  induction l with
  | nil => intro acc _ _ p hp; exact absurd hp (List.not_mem_nil p)
  | cons q rest ih =>
    intro acc hnd hrange p hp
    rw [List.map_cons, List.nodup_cons] at hnd
    rw [List.foldl_cons]
    rcases List.mem_cons.mp hp with he | hmem
    · subst he
      have hq := hrange p (List.mem_cons_self p rest)
      have hset :
          (cancelStep acc p).assigns.getD (litVar p) .lundef = .lundef ∧
          (cancelStep acc p).polarity.getD (litVar p) false = litSign p := by
        simp only [cancelStep, insertVarOrder_assigns, insertVarOrder_polarity]
        exact ⟨getD_set_self _ _ _ _ hq.1, getD_set_self _ _ _ _ hq.2⟩
      have hpres := cancelFold_getD_ne (litVar p) rest (cancelStep acc p) hnd.1
      refine ⟨hpres.1.trans hset.1, hpres.2.trans hset.2, ?_⟩
      apply cancelFold_inHeap_mono
      simp only [cancelStep]
      exact insertVarOrder_inHeap_self _ _
    · exact ih (cancelStep acc q)
        (by simpa using hnd.2)
        (fun r hr => by
          rw [cancelStep_assigns_length, cancelStep_polarity_length]
          exact hrange r (List.mem_cons_of_mem q hr))
        p hmem

end Solver
end CDCL

namespace CDCL
open Solver

/-! ### Claim C7 (cancelUntil) -/
/-- Claim C7, counterexample: for a level L strictly above the current
decision level `cancelUntil` is a no-op (`Solver.cc` line 248 guards with
`decisionLevel() > level`), so the decision level afterwards is not L:
at the freshly constructed solver, `cancelUntil 1` leaves level 0. -/
theorem claim_C7_counterexample : ¬ ((initSolver.cancelUntil 1).decisionLevel = 1) := by
  decide

/-- Claim C7 as amended: for every level L that does not exceed the current
decision level, after `cancelUntil L` the decision level equals L, and if L
is strictly below the current level then `qhead = trail_lim[L]`, the trail
and `trail_lim` are truncated there, and every trail entry at index
≥ `trail_lim[L]` has its variable unassigned, its sign saved into
`polarity`, and its variable present in the order heap.  (The in-range and
no-duplicate premises hold for every reachable solver state: the trail
mentions each variable at most once and only variables created by
`newVar`.) -/
theorem claim_C7 (s : Solver) (L : Nat) (hL : L ≤ s.decisionLevel)
    (hrange : ∀ p ∈ s.trail.drop (s.trail_lim.getD L 0),
      litVar p < s.assigns.length ∧ litVar p < s.polarity.length)
    (hnd : ((s.trail.drop (s.trail_lim.getD L 0)).map litVar).Nodup) :
    (s.cancelUntil L).decisionLevel = L ∧
    (L < s.decisionLevel →
      (s.cancelUntil L).qhead = s.trail_lim.getD L 0 ∧
      (s.cancelUntil L).trail = s.trail.take (s.trail_lim.getD L 0) ∧
      (s.cancelUntil L).trail_lim = s.trail_lim.take L ∧
      ∀ p ∈ s.trail.drop (s.trail_lim.getD L 0),
        (s.cancelUntil L).value (litVar p) = .lundef ∧
        (s.cancelUntil L).polarity.getD (litVar p) false = litSign p ∧
        (s.cancelUntil L).order_heap.inHeap (litVar p) = true) := by
  by_cases h : s.decisionLevel > L
  · have hmain := cancelFold_main ((s.trail.drop (s.trail_lim.getD L 0)).reverse) s
      (by rw [List.map_reverse, List.nodup_reverse]; exact hnd)
      (by intro p hp; exact hrange p (List.mem_reverse.mp hp))
    simp only [Solver.cancelUntil, if_pos h]
    constructor
    · simp only [Solver.decisionLevel] at h ⊢
      rw [List.length_take]
      omega
    · intro _
      refine ⟨by trivial, by trivial, by trivial, ?_⟩
      intro p hp
      have := hmain p (List.mem_reverse.mpr hp)
      exact ⟨this.1, this.2.1, this.2.2⟩
  · have he : L = s.decisionLevel := by omega
    simp only [Solver.cancelUntil, if_neg h]
    exact ⟨he.symm, fun hlt => absurd hlt h⟩

/-- Witness for `claim_C7` at the concrete decided state: cancelling to
level 0 unassigns the decision variable, saves its phase and reinserts it. -/
theorem claim_C7_witness :
    0 ≤ demoDecided.decisionLevel ∧
    ((demoDecided.cancelUntil 0).decisionLevel = 0 ∧
     (0 < demoDecided.decisionLevel →
       (demoDecided.cancelUntil 0).qhead = demoDecided.trail_lim.getD 0 0 ∧
       (demoDecided.cancelUntil 0).trail = demoDecided.trail.take (demoDecided.trail_lim.getD 0 0) ∧
       (demoDecided.cancelUntil 0).trail_lim = demoDecided.trail_lim.take 0 ∧
       ∀ p ∈ demoDecided.trail.drop (demoDecided.trail_lim.getD 0 0),
         (demoDecided.cancelUntil 0).value (litVar p) = .lundef ∧
         (demoDecided.cancelUntil 0).polarity.getD (litVar p) false = litSign p ∧
         (demoDecided.cancelUntil 0).order_heap.inHeap (litVar p) = true)) :=
  ⟨by decide, claim_C7 demoDecided 0 (by decide) (by decide) (by decide)⟩

end CDCL

namespace CDCL

/-- A decidable sufficient check for `cleanForward`. -/
theorem Arena.cleanForward_of_clauses {ca : Arena}
    (h : ∀ c ∈ ca.clauses, c.reloced = none) : ca.cleanForward := by
  intro cr
  unfold Arena.get
  by_cases hcr : cr < ca.clauses.length
  · rw [List.getD_eq_getElem?_getD, List.getElem?_eq_getElem hcr]
    exact h _ (List.getElem_mem hcr)
  · rw [List.getD_eq_getElem?_getD, List.getElem?_eq_none (by omega)]
    rfl

theorem Arena.get_setc_proj (ca : Arena) (cr x : Nat) (c : Clause) :
    ((ca.setc cr c).get x) = if x = cr ∧ cr < ca.clauses.length then c else ca.get x := by
  by_cases hx : x = cr
  · subst hx
    by_cases hin : x < ca.clauses.length
    · simp only [hin, and_true, if_pos (And.intro rfl hin)]
      unfold Arena.setc Arena.get
      rw [List.getD_eq_getElem?_getD, List.getElem?_set_self (by simpa using hin)]
      rfl
    · rw [if_neg (by tauto)]
      unfold Arena.setc Arena.get
      rw [List.getD_eq_getElem?_getD, List.getElem?_eq_none (by simpa using (by omega : ca.clauses.length ≤ x))]
      rw [List.getD_eq_getElem?_getD, List.getElem?_eq_none (by omega)]
  · rw [if_neg (by tauto)]
    unfold Arena.setc Arena.get
    rw [List.getD_eq_getElem?_getD, List.getElem?_set_ne (fun he => hx he.symm)]
    rw [List.getD_eq_getElem?_getD]

end CDCL

namespace CDCL
namespace Solver

theorem detachClause_proj (s : Solver) (cr : Nat) :
    (s.detachClause cr).assigns = s.assigns ∧
    (s.detachClause cr).vardata = s.vardata ∧
    (s.detachClause cr).ca = s.ca ∧
    (s.detachClause cr).learnts = s.learnts ∧
    (s.detachClause cr).conflicts = s.conflicts ∧
    (s.detachClause cr).lbdQueue = s.lbdQueue := by
  unfold detachClause
  dsimp only
  split <;> exact ⟨rfl, rfl, rfl, rfl, rfl, rfl⟩

theorem lockedAt_congr (s s' : Solver) (hca : s'.ca = s.ca) (ha : s'.assigns = s.assigns)
    (hv : s'.vardata = s.vardata) (cr : Nat) : s'.lockedAt cr = s.lockedAt cr := by
  unfold lockedAt valueL reason
  rw [hca, ha, hv]

/-- `removeClause` on an unlocked clause reduces to marking and freeing. -/
theorem removeClause_eq (s : Solver) (cr : Nat) (hnl : ¬ s.lockedAt cr = true) :
    s.removeClause cr =
      { s.detachClause cr with
        ca := ((s.detachClause cr).ca.setc cr
                 { (s.detachClause cr).ca.get cr with mark := 1 }).free cr,
        nb_removed_clauses := (s.detachClause cr).nb_removed_clauses + 1 } := by
  have hp := detachClause_proj s cr
  have h1 : (s.detachClause cr).lockedAt cr = s.lockedAt cr :=
    lockedAt_congr s _ hp.2.2.1 hp.1 hp.2.1 cr
  unfold removeClause
  dsimp only
  rw [h1, if_neg hnl]

/-- `removeClause` on an unlocked clause keeps assignments, variable data,
every clause's literals and forwarding state, the learnts list and the
conflict statistics. -/
theorem removeClause_preserves (s : Solver) (cr : Nat) (hnl : ¬ s.lockedAt cr = true) :
    (s.removeClause cr).assigns = s.assigns ∧
    (s.removeClause cr).vardata = s.vardata ∧
    (∀ x, ((s.removeClause cr).ca.get x).lits = (s.ca.get x).lits) ∧
    (∀ x, ((s.removeClause cr).ca.get x).reloced = (s.ca.get x).reloced) ∧
    (s.removeClause cr).learnts = s.learnts ∧
    (s.removeClause cr).conflicts = s.conflicts ∧
    (s.removeClause cr).lbdQueue = s.lbdQueue := by
  obtain ⟨ha, hv, hca, hl, hc, hq⟩ := detachClause_proj s cr
  rw [removeClause_eq s cr hnl]
  refine ⟨ha, hv, ?_, ?_, hl, hc, hq⟩
  · intro x
    show (((s.detachClause cr).ca.setc cr _).get x).lits = _
    rw [Arena.get_setc_proj, hca]
    split
    · rename_i h
      rw [h.1]
    · rfl
  · intro x
    show (((s.detachClause cr).ca.setc cr _).get x).reloced = _
    rw [Arena.get_setc_proj, hca]
    split
    · rename_i h
      rw [h.1]
    · rfl

theorem removeClause_lockedAt (s : Solver) (cr x : Nat) (hnl : ¬ s.lockedAt cr = true) :
    (s.removeClause cr).lockedAt x = s.lockedAt x := by
  obtain ⟨ha, hv, hca, _, _, _, _⟩ := removeClause_preserves s cr hnl
  unfold lockedAt valueL reason
  dsimp only
  rw [ha, hv, hca]

theorem removeClause_size (s : Solver) (cr x : Nat) (hnl : ¬ s.lockedAt cr = true) :
    ((s.removeClause cr).ca.get x).size = (s.ca.get x).size := by
  unfold Clause.size
  rw [(removeClause_preserves s cr hnl).2.2.1]

theorem dropCond_iff (s : Solver) (n : Nat) (ic : Nat × Nat) :
    dropCond s n ic = true ↔
      ((s.ca.get ic.2).size > 2 ∧ ¬ s.lockedAt ic.2 = true ∧ ic.1 < n / 2) := by
  simp [dropCond, and_assoc]

theorem dropCond_removeClause (s : Solver) (n cr : Nat) (hnl : ¬ s.lockedAt cr = true)
    (ic : Nat × Nat) : dropCond (s.removeClause cr) n ic = dropCond s n ic := by
  unfold dropCond
  rw [removeClause_size s cr ic.2 hnl, removeClause_lockedAt s cr ic.2 hnl]

theorem reduceDBLoop_spec (n : Nat) :
    ∀ (items : List (Nat × Nat)) (s : Solver) (kept : List Nat),
      (reduceDBLoop n s items kept).2 =
        kept ++ (items.filter (fun ic => ! dropCond s n ic)).map Prod.snd ∧
      (∀ x, ((reduceDBLoop n s items kept).1.ca.get x).lits = (s.ca.get x).lits) ∧
      (∀ x, ((reduceDBLoop n s items kept).1.ca.get x).reloced = (s.ca.get x).reloced) := by
  intro items
  induction items with
  | nil =>
    intro s kept
    exact ⟨by simp [reduceDBLoop], fun x => rfl, fun x => rfl⟩
  | cons ic rest ih =>
    intro s kept
    obtain ⟨i, cr⟩ := ic
    show (reduceDBLoop n s ((i, cr) :: rest) kept).2 = _ ∧ _
    rw [reduceDBLoop]
    by_cases hc : ((s.ca.get cr).size > 2 ∧ ¬ s.lockedAt cr = true ∧ i < n / 2)
    · have hdc : dropCond s n (i, cr) = true := (dropCond_iff s n (i, cr)).mpr hc
      rw [if_pos hc]
      have hnl : ¬ s.lockedAt cr = true := hc.2.1
      obtain ⟨ihk, ihl, ihr⟩ := ih (s.removeClause cr) kept
      refine ⟨?_, ?_, ?_⟩
      · rw [ihk, List.filter_cons]
        simp only [hdc, Bool.not_true, Bool.false_eq_true, if_false]
        congr 1
        congr 1
        apply List.filter_congr
        intro a _
        rw [dropCond_removeClause s n cr hnl a]
      · intro x
        rw [ihl x, (removeClause_preserves s cr hnl).2.2.1 x]
      · intro x
        rw [ihr x, (removeClause_preserves s cr hnl).2.2.2.1 x]
    · have hdc : ¬ dropCond s n (i, cr) = true := fun h => hc ((dropCond_iff s n (i, cr)).mp h)
      rw [if_neg hc]
      obtain ⟨ihk, ihl, ihr⟩ := ih s (kept ++ [cr])
      refine ⟨?_, ihl, ihr⟩
      rw [ihk, List.filter_cons]
      simp only [Bool.not_eq_true] at hdc
      simp only [hdc, Bool.not_false, if_true, List.map_cons, List.append_assoc,
        List.singleton_append]

end Solver
end CDCL

namespace CDCL

/-! ### Relocation preserves clause values -/
theorem Arena.setc_length (ca : Arena) (cr : Nat) (c : Clause) :
    (ca.setc cr c).clauses.length = ca.clauses.length := by
  simp [Arena.setc]

theorem Arena.alloc_length (ca : Arena) (l : List Nat) (b : Bool) :
    (ca.alloc l b).2.clauses.length = ca.clauses.length + 1 := by
  simp [Arena.alloc]

theorem Arena.get_alloc_lt (ca : Arena) (l : List Nat) (b : Bool) (x : Nat)
    (hx : x < ca.clauses.length) : (ca.alloc l b).2.get x = ca.get x := by
  unfold Arena.alloc Arena.get
  simp only
  rw [List.getD_eq_getElem?_getD, List.getElem?_append, List.getD_eq_getElem?_getD]
  rw [if_pos hx]

/-- One `reloc` keeps the invariant, returns a reference into the target
arena holding the clause's literals, and leaves existing target entries
untouched. -/
theorem Arena.reloc_spec (base ca toA : Arena) (cr : Nat) (hinv : RelocInv base ca toA) :
    RelocInv base (Arena.reloc ca cr toA).2.1 (Arena.reloc ca cr toA).2.2 ∧
    (Arena.reloc ca cr toA).1 < (Arena.reloc ca cr toA).2.2.clauses.length ∧
    ((Arena.reloc ca cr toA).2.2.get (Arena.reloc ca cr toA).1).lits = (base.get cr).lits ∧
    toA.clauses.length ≤ (Arena.reloc ca cr toA).2.2.clauses.length ∧
    (∀ x, x < toA.clauses.length → (Arena.reloc ca cr toA).2.2.get x = toA.get x) := by
  unfold Arena.reloc
  rcases hr : (ca.get cr).reloced with _ | fwd
  · dsimp only
    have hidx : (toA.alloc (ca.get cr).lits (ca.get cr).learnt).1 = toA.clauses.length := rfl
    rw [hidx]
    have hlen : ∀ c : Clause,
        ((toA.alloc (ca.get cr).lits (ca.get cr).learnt).2.setc toA.clauses.length c).clauses.length
          = toA.clauses.length + 1 := by
      intro c
      rw [Arena.setc_length, Arena.alloc_length]
    have hgetm : ∀ c : Clause,
        (((toA.alloc (ca.get cr).lits (ca.get cr).learnt).2.setc toA.clauses.length c).get
          toA.clauses.length) = c := by
      intro c
      rw [Arena.get_setc_proj]
      rw [if_pos ⟨rfl, by rw [Arena.alloc_length]; omega⟩]
    have hpres : ∀ (c : Clause) x, x < toA.clauses.length →
        (((toA.alloc (ca.get cr).lits (ca.get cr).learnt).2.setc toA.clauses.length c).get x)
          = toA.get x := by
      intro c x hx
      rw [Arena.get_setc_proj, if_neg (by omega), Arena.get_alloc_lt _ _ _ _ hx]
    refine ⟨⟨?_, ?_⟩, ?_, ?_, ?_, ?_⟩
    · intro x
      rw [Arena.get_setc_proj]
      split
      · rename_i h
        rw [h.1]
        exact hinv.1 cr
      · exact hinv.1 x
    · intro x f hf
      rw [Arena.get_setc_proj] at hf
      split at hf
      · rename_i h
        obtain rfl : toA.clauses.length = f := by
          have : (some toA.clauses.length : Option Nat) = some f := hf
          injection this
        rw [h.1]
        refine ⟨by rw [hlen]; omega, ?_⟩
        rw [hgetm]
        exact hinv.1 cr
      · have hold := hinv.2 x f hf
        refine ⟨by rw [hlen]; omega, ?_⟩
        rw [hpres _ f hold.1]
        exact hold.2
    · rw [hlen]; omega
    · rw [hgetm]
      exact hinv.1 cr
    · rw [hlen]; omega
    · intro x hx
      exact hpres _ x hx
  · dsimp only
    exact ⟨hinv, (hinv.2 cr fwd hr).1, (hinv.2 cr fwd hr).2, Nat.le_refl _, fun x _ => rfl⟩

/-- The output accumulator of the `relocList` fold is append-homomorphic. -/
theorem Solver.relocFold_out (l : List Nat) :
    ∀ (ca toA : Arena) (out0 : List Nat),
      (l.foldl (fun acc cr =>
          let r := Arena.reloc acc.1 cr acc.2.1
          (r.2.1, r.2.2, acc.2.2 ++ [r.1])) (ca, toA, out0)) =
      ((Solver.relocList ca toA l).1, (Solver.relocList ca toA l).2.1, out0 ++ (Solver.relocList ca toA l).2.2) := by
  induction l with
  | nil =>
    intro ca toA out0
    simp [Solver.relocList]
  | cons cr rest ih =>
    intro ca toA out0
    unfold Solver.relocList
    rw [List.foldl_cons, List.foldl_cons]
    dsimp only
    rw [ih _ _ (out0 ++ [(Arena.reloc ca cr toA).1]),
        ih _ _ ([] ++ [(Arena.reloc ca cr toA).1])]
    simp

/-- Unfolding of `relocList` on a cons cell. -/
theorem Solver.relocList_cons (ca toA : Arena) (cr : Nat) (rest : List Nat) :
    Solver.relocList ca toA (cr :: rest) =
      ((Solver.relocList (Arena.reloc ca cr toA).2.1 (Arena.reloc ca cr toA).2.2 rest).1,
       (Solver.relocList (Arena.reloc ca cr toA).2.1 (Arena.reloc ca cr toA).2.2 rest).2.1,
       (Arena.reloc ca cr toA).1 ::
         (Solver.relocList (Arena.reloc ca cr toA).2.1 (Arena.reloc ca cr toA).2.2 rest).2.2) := by
  unfold Solver.relocList
  rw [List.foldl_cons]
  dsimp only
  rw [Solver.relocFold_out rest _ _ ([] ++ [(Arena.reloc ca cr toA).1])]
  simp [Solver.relocList]

/-- `relocList` keeps the invariant, leaves existing target entries
untouched, and returns references whose clauses carry the original
literals, in order. -/
theorem Solver.relocList_spec (base : Arena) :
    ∀ (l : List Nat) (ca toA : Arena), RelocInv base ca toA →
      RelocInv base (Solver.relocList ca toA l).1 (Solver.relocList ca toA l).2.1 ∧
      toA.clauses.length ≤ (Solver.relocList ca toA l).2.1.clauses.length ∧
      (∀ x, x < toA.clauses.length → (Solver.relocList ca toA l).2.1.get x = toA.get x) ∧
      (Solver.relocList ca toA l).2.2.length = l.length ∧
      (∀ k, k < l.length →
        (Solver.relocList ca toA l).2.2.getD k 0 < (Solver.relocList ca toA l).2.1.clauses.length ∧
        ((Solver.relocList ca toA l).2.1.get ((Solver.relocList ca toA l).2.2.getD k 0)).lits =
          (base.get (l.getD k 0)).lits) := by
  intro l
  induction l with
  | nil =>
    intro ca toA hinv
    exact ⟨hinv, Nat.le_refl _, fun x _ => rfl, rfl, fun k hk => absurd hk (Nat.not_lt_zero k)⟩
  | cons cr rest ih =>
    intro ca toA hinv
    rw [Solver.relocList_cons]
    dsimp only
    obtain ⟨hinv1, hlt1, hval1, hle1, hpres1⟩ := Arena.reloc_spec base ca toA cr hinv
    obtain ⟨ihinv, ihle, ihpres, ihlen, ihvals⟩ :=
      ih (Arena.reloc ca cr toA).2.1 (Arena.reloc ca cr toA).2.2 hinv1
    refine ⟨ihinv, by omega, ?_, by simp [ihlen], ?_⟩
    · intro x hx
      rw [ihpres x (by omega), hpres1 x hx]
    · intro k hk
      cases k with
      | zero =>
        rw [List.getD_cons_zero, List.getD_cons_zero]
        exact ⟨by omega, by rw [ihpres _ hlt1]; exact hval1⟩
      | succ j =>
        rw [List.getD_cons_succ, List.getD_cons_succ]
        exact ihvals j (by simpa using Nat.lt_of_succ_lt_succ hk)

/-- Phase 1 of `relocAll` (the watcher sweep) keeps the relocation invariant. -/
theorem relocWatchFold_inv (base : Arena) (W : List (List Watcher)) :
    ∀ (lst : List Nat) (ca0 to0 : Arena) (out0 : List (List Watcher)),
      RelocInv base ca0 to0 →
      RelocInv base
        (lst.foldl (fun (acc : Arena × Arena × List (List Watcher)) pl =>
          let ws := W.getD pl []
          let r := Solver.relocList acc.1 acc.2.1 (ws.map Watcher.cref)
          (r.1, r.2.1, acc.2.2 ++ [List.zipWith (fun w n => Watcher.mk n w.blocker) ws r.2.2]))
          (ca0, to0, out0)).1
        (lst.foldl (fun (acc : Arena × Arena × List (List Watcher)) pl =>
          let ws := W.getD pl []
          let r := Solver.relocList acc.1 acc.2.1 (ws.map Watcher.cref)
          (r.1, r.2.1, acc.2.2 ++ [List.zipWith (fun w n => Watcher.mk n w.blocker) ws r.2.2]))
          (ca0, to0, out0)).2.1 := by
  intro lst
  induction lst with
  | nil => intro ca0 to0 out0 h; exact h
  | cons pl rest ih =>
    intro ca0 to0 out0 h
    rw [List.foldl_cons]
    apply ih
    exact (Solver.relocList_spec base _ _ _ h).1

/-- Phase 2 of `relocAll` (the reason sweep over the trail) keeps the
relocation invariant. -/
theorem relocReasonFold_inv (base : Arena) (sv : Solver) :
    ∀ (tr : List Nat) (vd0 : List VarData) (ca0 to0 : Arena),
      RelocInv base ca0 to0 →
      RelocInv base
        (tr.foldl (fun (acc : List VarData × Arena × Arena) pl =>
          let v := litVar pl
          match (acc.1.getD v (mkVarData none 0)).reason with
          | none => acc
          | some rc =>
            let c := acc.2.1.get rc
            let isLocked := (sv.valueL (c.lits.getD 0 0) == LBool.ltrue) &&
              ((acc.1.getD (litVar (c.lits.getD 0 0)) (mkVarData none 0)).reason == some rc)
            if c.reloced.isSome || isLocked then
              let r := Arena.reloc acc.2.1 rc acc.2.2
              (acc.1.set v (mkVarData (some r.1) (acc.1.getD v (mkVarData none 0)).level),
               r.2.1, r.2.2)
            else acc) (vd0, ca0, to0)).2.1
        (tr.foldl (fun (acc : List VarData × Arena × Arena) pl =>
          let v := litVar pl
          match (acc.1.getD v (mkVarData none 0)).reason with
          | none => acc
          | some rc =>
            let c := acc.2.1.get rc
            let isLocked := (sv.valueL (c.lits.getD 0 0) == LBool.ltrue) &&
              ((acc.1.getD (litVar (c.lits.getD 0 0)) (mkVarData none 0)).reason == some rc)
            if c.reloced.isSome || isLocked then
              let r := Arena.reloc acc.2.1 rc acc.2.2
              (acc.1.set v (mkVarData (some r.1) (acc.1.getD v (mkVarData none 0)).level),
               r.2.1, r.2.2)
            else acc) (vd0, ca0, to0)).2.2 := by
  intro tr
  induction tr with
  | nil => intro vd0 ca0 to0 h; exact h
  | cons pl rest ih =>
    intro vd0 ca0 to0 h
    rw [List.foldl_cons]
    dsimp only
    rcases hm : (vd0.getD (litVar pl) (mkVarData none 0)).reason with _ | rc
    · simp only [hm]
      exact ih vd0 ca0 to0 h
    · simp only [hm]
      split
      · exact ih _ _ _ (Arena.reloc_spec base _ _ rc h).1
      · exact ih _ _ _ h

/-- `relocAll` hands every learnt reference over to the target arena with its
literals intact and in order. -/
theorem Solver.relocAll_learnts (s : Solver) (toA : Arena)
    (hinv : RelocInv s.ca s.ca toA) :
    (s.relocAll toA).1.learnts.length = s.learnts.length ∧
    ∀ k, k < s.learnts.length →
      ((s.relocAll toA).2.get ((s.relocAll toA).1.learnts.getD k 0)).lits =
        (s.ca.get (s.learnts.getD k 0)).lits := by
  unfold Solver.relocAll
  dsimp only
  have hca0 : s.cleanAll.ca = s.ca := rfl
  have hl0 : s.cleanAll.learnts = s.learnts := rfl
  rw [hca0, hl0]
  have hA := relocWatchFold_inv s.ca s.cleanAll.watches (List.range (2 * s.cleanAll.nVars))
    s.ca toA [] hinv
  have hB := relocReasonFold_inv s.ca s.cleanAll s.cleanAll.trail s.cleanAll.vardata _ _ hA
  have hC := Solver.relocList_spec s.ca s.learnts _ _ hB
  have hD := Solver.relocList_spec s.ca s.cleanAll.clauses _ _ hC.1
  refine ⟨hC.2.2.2.1, ?_⟩
  intro k hk
  have hkv := hC.2.2.2.2 k hk
  rw [hD.2.2.1 _ hkv.1]
  exact hkv.2

/-- `garbageCollect` keeps the learnt clauses' literal lists, in order. -/
theorem Solver.garbageCollect_learnts_lits (s : Solver) (hcf : s.ca.cleanForward) :
    (s.garbageCollect).learnts.map (fun cr => ((s.garbageCollect).ca.get cr).lits) =
      s.learnts.map (fun cr => (s.ca.get cr).lits) := by
  have hinv : RelocInv s.ca s.ca ⟨[], 0⟩ := by
    refine ⟨fun _ => rfl, fun cr fwd h => ?_⟩
    rw [hcf cr] at h
    cases h
  obtain ⟨hlen, hvals⟩ := Solver.relocAll_learnts s ⟨[], 0⟩ hinv
  unfold Solver.garbageCollect
  dsimp only
  apply List.ext_getElem
  · simp [hlen]
  · intro i h1 h2
    simp only [List.getElem_map]
    simp only [List.length_map] at h1 h2
    have hv := hvals i (by omega)
    rw [List.getD_eq_getElem _ _ h1, List.getD_eq_getElem _ _ h2] at hv
    exact hv

/-- `checkGarbage` keeps the learnt clauses' literal lists, in order. -/
theorem Solver.checkGarbage_learnts_lits (s : Solver) (hcf : s.ca.cleanForward) :
    (s.checkGarbage).learnts.map (fun cr => ((s.checkGarbage).ca.get cr).lits) =
      s.learnts.map (fun cr => (s.ca.get cr).lits) := by
  unfold Solver.checkGarbage
  split
  · exact Solver.garbageCollect_learnts_lits s hcf
  · rfl

/-! ### Claim C6 (reduceDB) -/
/-- `reduceDB` unfolded: run the filter loop on the sorted list, install the
kept references, then `checkGarbage`. -/
theorem Solver.reduceDB_eq (s : Solver) :
    s.reduceDB = Solver.checkGarbage
      { (Solver.reduceDBLoop (Solver.sortLearnts s).length
          { s with nb_reducedb := s.nb_reducedb + 1 }
          ((Solver.sortLearnts s).enum) []).1 with
        learnts := (Solver.reduceDBLoop (Solver.sortLearnts s).length
          { s with nb_reducedb := s.nb_reducedb + 1 }
          ((Solver.sortLearnts s).enum) []).2 } := rfl

/-- Claim C6: `reduceDB` removes a learnt clause iff its size is > 2, it is
not locked, and its index in the sorted learnts list lies in the first half;
equivalently the surviving learnt clauses are exactly the other entries of
the sorted list, in their order (stated on the clauses' literal lists, which
a garbage collection triggered by `checkGarbage` preserves).  In particular
binary and locked clauses always survive.  The premise (no stale forwarding
references) holds between collections. -/
theorem claim_C6 (s : Solver) (hcf : s.ca.cleanForward) :
    (s.reduceDB).learnts.map (fun cr => ((s.reduceDB).ca.get cr).lits) =
      ((Solver.sortLearnts s).enum.filter
        (fun ic => ! Solver.dropCond s (Solver.sortLearnts s).length ic)).map
        (fun ic => (s.ca.get ic.2).lits) ∧
    ∀ ic ∈ (Solver.sortLearnts s).enum,
      ((s.ca.get ic.2).size = 2 ∨ s.lockedAt ic.2 = true) →
        (s.ca.get ic.2).lits ∈
          (s.reduceDB).learnts.map (fun cr => ((s.reduceDB).ca.get cr).lits) := by
  have hmain : (s.reduceDB).learnts.map (fun cr => ((s.reduceDB).ca.get cr).lits) =
      ((Solver.sortLearnts s).enum.filter
        (fun ic => ! Solver.dropCond s (Solver.sortLearnts s).length ic)).map
        (fun ic => (s.ca.get ic.2).lits) := by
    rw [Solver.reduceDB_eq]
    set R := Solver.reduceDBLoop (Solver.sortLearnts s).length
      { s with nb_reducedb := s.nb_reducedb + 1 }
      ((Solver.sortLearnts s).enum) [] with hR
    obtain ⟨hkept, hlits, hrel⟩ :=
      Solver.reduceDBLoop_spec (Solver.sortLearnts s).length
        ((Solver.sortLearnts s).enum)
        ({ s with nb_reducedb := s.nb_reducedb + 1 } : Solver) []
    rw [← hR] at hkept hlits hrel
    have hcf2 : ({ R.1 with learnts := R.2 } : Solver).ca.cleanForward :=
      fun x => (hrel x).trans (hcf x)
    refine (Solver.checkGarbage_learnts_lits _ hcf2).trans ?_
    show R.2.map (fun cr => ((R.1).ca.get cr).lits) = _
    rw [hkept, List.nil_append, List.map_map]
    apply List.map_congr_left
    intro ic _
    exact hlits ic.2
  refine ⟨hmain, ?_⟩
  intro ic hic hbl
  have hdrop : Solver.dropCond s (Solver.sortLearnts s).length ic = false := by
    unfold Solver.dropCond
    rcases hbl with hb | hl
    · have hn : ¬ (2 < (s.ca.get ic.2).size) := by omega
      simp [hn]
    · simp [hl]
  rw [hmain]
  apply List.mem_map_of_mem
  rw [List.mem_filter]
  exact ⟨hic, by rw [hdrop]; rfl⟩

/-- Witness for `claim_C6` at `demoLearnts`. -/
theorem claim_C6_witness :
    (∀ c ∈ demoLearnts.ca.clauses, c.reloced = none) ∧
    ((demoLearnts.reduceDB).learnts.map
        (fun cr => ((demoLearnts.reduceDB).ca.get cr).lits) =
      ((Solver.sortLearnts demoLearnts).enum.filter
        (fun ic => ! Solver.dropCond demoLearnts (Solver.sortLearnts demoLearnts).length ic)).map
        (fun ic => (demoLearnts.ca.get ic.2).lits) ∧
    ∀ ic ∈ (Solver.sortLearnts demoLearnts).enum,
      ((demoLearnts.ca.get ic.2).size = 2 ∨ demoLearnts.lockedAt ic.2 = true) →
        (demoLearnts.ca.get ic.2).lits ∈
          (demoLearnts.reduceDB).learnts.map
            (fun cr => ((demoLearnts.reduceDB).ca.get cr).lits)) :=
  ⟨by decide, claim_C6 demoLearnts (Arena.cleanForward_of_clauses (by decide))⟩

theorem LBool.lxor_not (a : LBool) (b : Bool) : a.lxor (!b) = (a.lxor b).lnot := by
  cases a <;> cases b <;> rfl

theorem Solver.valueL_litNeg (s : Solver) (p : Nat) :
    s.valueL (litNeg p) = (s.valueL p).lnot := by
  unfold Solver.valueL
  rw [litVar_litNeg, litSign_litNeg, LBool.lxor_not]

theorem litNeg_of_even (a : Nat) (ha : a % 2 = 0) : litNeg a = a + 1 := by
  unfold litNeg
  rw [if_neg (by omega)]

theorem litNeg_of_odd (a : Nat) (ha : a % 2 = 1) : litNeg a = a - 1 := by
  unfold litNeg
  rw [if_pos ha]

end CDCL

namespace CDCL
namespace Solver

/-- If the list holds a literal that is already true, the scan reports the
clause satisfied. -/
theorem addScan_sat_of_true (s : Solver) (q : Nat) (hq : s.valueL q = .ltrue) :
    ∀ (l : List Nat) (p : Option Nat) (kept : List Nat), q ∈ l →
      (addScan s l p kept).1 = true := by
  intro l
  induction l with
  | nil => intro p kept h; exact absurd h (List.not_mem_nil q)
  | cons h rest ih =>
    intro p kept hmem
    rw [addScan]
    split
    · rfl
    · rename_i hcond
      have hqr : q ∈ rest := by
        rcases List.mem_cons.mp hmem with he | hr
        · subst he
          exact absurd (Or.inl hq) hcond
        · exact hr
      split
      · exact ih _ _ hqr
      · exact ih _ _ hqr

/-- Phase 2: the last kept literal is the even half `a` of a complementary
pair whose variable is unassigned; when the scan reaches `a + 1` it reports
the clause satisfied. -/
theorem addScan_sat_phase2 (s : Solver) (a : Nat) (ha : a % 2 = 0)
    (hu : s.valueL a = .lundef) :
    ∀ (l : List Nat) (kept : List Nat), l.Sorted (· ≤ ·) → (∀ e ∈ l, a ≤ e) →
      (a + 1) ∈ l → (addScan s l (some a) kept).1 = true := by
  intro l
  induction l with
  | nil => intro kept _ _ h; exact absurd h (List.not_mem_nil _)
  | cons h rest ih =>
    intro kept hsort hbound hmem
    rw [addScan]
    split
    · rfl
    · rename_i hcond
      have hna : ¬ (h = a + 1) := by
        intro he
        refine hcond (Or.inr ?_)
        show some h = some (litNeg a)
        rw [litNeg_of_even a ha, he]
      have hh : h = a := by
        have h1 : a ≤ h := hbound h (List.mem_cons_self h rest)
        have h2 : a + 1 ∈ rest := by
          rcases List.mem_cons.mp hmem with he | hr
          · exact absurd he.symm hna
          · exact hr
        have h3 : h ≤ a + 1 := (List.sorted_cons.mp hsort).1 _ h2
        omega
      have h2 : a + 1 ∈ rest := by
        rcases List.mem_cons.mp hmem with he | hr
        · exact absurd he.symm hna
        · exact hr
      have hskip : ¬ (s.valueL h ≠ .lfalse ∧ some h ≠ some a) := by
        intro hk
        exact hk.2 (by rw [hh])
      rw [if_neg hskip]
      exact ih kept (List.sorted_cons.mp hsort).2
        (fun e he => hh ▸ (List.sorted_cons.mp hsort).1 e he) h2

/-- On a sorted list containing a complementary pair whose variable is
unassigned, the scan reports the clause satisfied. -/
theorem addScan_sat_phase1 (s : Solver) (a : Nat) (ha : a % 2 = 0)
    (hu : s.valueL a = .lundef) :
    ∀ (l : List Nat) (p : Option Nat) (kept : List Nat), l.Sorted (· ≤ ·) →
      a ∈ l → (a + 1) ∈ l → (addScan s l p kept).1 = true := by
  intro l
  induction l with
  | nil => intro p kept _ h _; exact absurd h (List.not_mem_nil _)
  | cons h rest ih =>
    intro p kept hsort hmema hmemb
    rw [addScan]
    split
    · rfl
    · rename_i hcond
      by_cases hha : h = a
      · have hb : a + 1 ∈ rest := by
          rcases List.mem_cons.mp hmemb with he | hr
          · omega
          · exact hr
        have htail := List.sorted_cons.mp hsort
        have hbound2 : ∀ e ∈ rest, a ≤ e := by
          intro e he2
          rw [← hha]
          exact htail.1 e he2
        split
        · rw [hha]
          exact addScan_sat_phase2 s a ha hu rest _ htail.2 hbound2 hb
        · rename_i hkeep
          have hp : p = some a := by
            push_neg at hkeep
            rcases Decidable.em (s.valueL h = .lfalse) with hv | hv
            · rw [hha, hu] at hv
              cases hv
            · have h2 := hkeep hv
              rw [hha] at h2
              exact h2.symm
          rw [hp]
          exact addScan_sat_phase2 s a ha hu rest _ htail.2 hbound2 hb
      · have hma : a ∈ rest := by
          rcases List.mem_cons.mp hmema with he | hr
          · exact absurd he.symm hha
          · exact hr
        have hmb : a + 1 ∈ rest := by
          rcases List.mem_cons.mp hmemb with he | hr
          · exfalso
            have h1 : h ≤ a := (List.sorted_cons.mp hsort).1 a hma
            omega
          · exact hr
        split
        · exact ih _ _ (List.sorted_cons.mp hsort).2 hma hmb
        · exact ih _ _ (List.sorted_cons.mp hsort).2 hma hmb

/-- The complementary pair {ℓ, ¬ℓ} is the pair {2·var, 2·var + 1}. -/
theorem taut_pair_mem (l : Nat) (ps : List Nat) (hl : l ∈ ps) (hnl : litNeg l ∈ ps) :
    2 * litVar l ∈ ps ∧ 2 * litVar l + 1 ∈ ps := by
  rcases Nat.mod_two_eq_zero_or_one l with hp | hp
  · have h1 : 2 * litVar l = l := by unfold litVar; omega
    have h2 : 2 * litVar l + 1 = litNeg l := by rw [litNeg_of_even l hp]; omega
    exact ⟨by rw [h1]; exact hl, by rw [h2]; exact hnl⟩
  · have h1 : 2 * litVar l = litNeg l := by unfold litVar; rw [litNeg_of_odd l hp]; omega
    have h2 : 2 * litVar l + 1 = l := by unfold litVar; omega
    exact ⟨by rw [h1]; exact hnl, by rw [h2]; exact hl⟩

/-- On a sorted list containing a complementary pair, the scan always reports
the clause satisfied. -/
theorem addScan_sat_taut (s : Solver) (l : Nat) (ps : List Nat)
    (hsort : ps.Sorted (· ≤ ·)) (hl : l ∈ ps) (hnl : litNeg l ∈ ps)
    (p : Option Nat) (kept : List Nat) : (addScan s ps p kept).1 = true := by
  obtain ⟨hma, hmb⟩ := taut_pair_mem l ps hl hnl
  have ha : (2 * litVar l) % 2 = 0 := by omega
  rcases hv : s.valueL (2 * litVar l) with _ | _ | _
  · exact addScan_sat_of_true s _ hv ps p kept hma
  · have hvb : s.valueL (2 * litVar l + 1) = .ltrue := by
      rw [← litNeg_of_even _ ha, Solver.valueL_litNeg, hv]
      rfl
    exact addScan_sat_of_true s _ hvb ps p kept hmb
  · exact addScan_sat_phase1 s (2 * litVar l) ha hv ps p kept hsort hma hmb

end Solver
end CDCL

namespace CDCL

/-- Claim C8: a tautological clause (containing some ℓ together with ¬ℓ) is
dropped by `addClause_` with result `true` and a completely unchanged solver
state: nothing is allocated, added to the clause list, or attached.
(The returned literal vector may have been reordered in place; that is
claim C10's subject.) -/
theorem claim_C8 (s : Solver) (ps : List Nat) (hok : s.ok = true)
    (l : Nat) (hl : l ∈ ps) (hnl : litNeg l ∈ ps) :
    ∃ ps', s.addClause_ ps = some (true, ps', s) := by
  unfold Solver.addClause_
  rw [if_neg (by rw [hok]; exact fun h => h rfl)]
  dsimp only
  have hsat : (Solver.addScan s (Solver.sortLits ps) none []).1 = true := by
    apply Solver.addScan_sat_taut s l
    · exact List.sorted_insertionSort _ ps
    · exact (List.perm_insertionSort _ ps).mem_iff.mpr hl
    · exact (List.perm_insertionSort _ ps).mem_iff.mpr hnl
  rw [if_pos hsat]
  exact ⟨_, rfl⟩

/-- Witness for `claim_C8`: adding the tautology (x₀ ∨ x₁ ∨ ¬x₀), i.e. the
literal codes [0, 2, 1], to the fresh two-variable solver. -/
theorem claim_C8_witness :
    (demoVars2.ok = true ∧ 0 ∈ [0, 2, 1] ∧ litNeg 0 ∈ [0, 2, 1]) ∧
    ∃ ps', demoVars2.addClause_ [0, 2, 1] = some (true, ps', demoVars2) :=
  ⟨⟨by decide, by decide, by decide⟩,
   claim_C8 demoVars2 [0, 2, 1] (by decide) 0 (by decide) (by decide)⟩

end CDCL

namespace CDCL
namespace Solver

/-! ### Claim C10 (addClause_ mutates ps in place) -/
theorem attachClause_proj (s : Solver) (cr : Nat) :
    (s.attachClause cr).ca = s.ca ∧ (s.attachClause cr).clauses = s.clauses := by
  unfold attachClause pushWatch
  dsimp only
  split <;> exact ⟨rfl, rfl⟩

/-- What the simplification scan keeps: a strictly increasing list of
literals of the sorted input that are not false, strictly above the incoming
last-kept literal. -/
theorem addScan_kept_spec (s : Solver) :
    ∀ (l : List Nat) (p : Option Nat) (kept0 : List Nat),
      l.Sorted (· ≤ ·) →
      (∀ x, p = some x → ∀ e ∈ l, x ≤ e) →
      ∃ fresh, (addScan s l p kept0).2 = kept0 ++ fresh ∧
        fresh.Sorted (· < ·) ∧
        (∀ q ∈ fresh, s.valueL q ≠ .lfalse ∧ q ∈ l) ∧
        (∀ x, p = some x → ∀ q ∈ fresh, x < q) := by
  intro l
  induction l with
  | nil =>
    intro p kept0 _ _
    exact ⟨[], by simp [addScan], List.sorted_nil, fun q hq => absurd hq (List.not_mem_nil q),
      fun x _ q hq => absurd hq (List.not_mem_nil q)⟩
  | cons h rest ih =>
    intro p kept0 hsort hp
    have htail := List.sorted_cons.mp hsort
    rw [addScan]
    split
    · exact ⟨[], by simp, List.sorted_nil, fun q hq => absurd hq (List.not_mem_nil q),
        fun x _ q hq => absurd hq (List.not_mem_nil q)⟩
    · split
      · rename_i hcond hkeep
        obtain ⟨fresh', he', hs', hm', hb'⟩ := ih (some h) (kept0 ++ [h]) htail.2
          (fun x hx e he => by cases hx; exact htail.1 e he)
        refine ⟨h :: fresh', by rw [he', List.append_assoc, List.singleton_append], ?_, ?_, ?_⟩
        · rw [List.sorted_cons]
          exact ⟨fun b hb => hb' h rfl b hb, hs'⟩
        · intro q hq
          rcases List.mem_cons.mp hq with he | hq'
          · subst he
            exact ⟨hkeep.1, List.mem_cons_self _ _⟩
          · exact ⟨(hm' q hq').1, List.mem_cons_of_mem h (hm' q hq').2⟩
        · intro x hx q hq
          cases hx
          rcases List.mem_cons.mp hq with he | hq'
          · subst he
            have h1 : x ≤ q := hp x rfl q (List.mem_cons_self _ _)
            have h2 : q ≠ x := fun hqx => hkeep.2 (by rw [hqx])
            omega
          · have h1 : x ≤ h := hp x rfl h (List.mem_cons_self _ _)
            have h2 : h < q := hb' h rfl q hq'
            omega
      · rename_i hcond hskip
        obtain ⟨fresh', he', hs', hm', hb'⟩ := ih p kept0 htail.2
          (fun x hx e he => hp x hx e (List.mem_cons_of_mem h he))
        exact ⟨fresh', he', hs',
          fun q hq => ⟨(hm' q hq).1, List.mem_cons_of_mem h (hm' q hq).2⟩,
          fun x hx q hq => hb' x hx q hq⟩

end Solver
end CDCL

namespace CDCL

/-- Claim C10: `addClause_` mutates the caller's vector in place.  The vector
is sorted before anything is stored; the scan keeps a strictly increasing
(hence duplicate-free) list of non-false literals of the sorted vector; when
a clause is stored it is exactly that cleaned vector, which is also what the
caller's vector now holds; and when the clause is dropped as satisfied the
caller's vector holds the partially compacted sorted array, so the caller's
literal sequence is not preserved — concretely, adding [3, 0, 2] to a state
where literal 0 is true returns the reordered vector [0, 2, 3] ≠ [3, 0, 2]
even though the clause was dropped. -/
theorem claim_C10 (s : Solver) (ps : List Nat) (hok : s.ok = true) :
    (Solver.sortLits ps).Sorted (· ≤ ·) ∧
    (Solver.sortLits ps).Perm ps ∧
    (∃ fresh, (Solver.addScan s (Solver.sortLits ps) none []).2 = fresh ∧
      fresh.Sorted (· < ·) ∧
      (∀ q ∈ fresh, s.valueL q ≠ .lfalse ∧ q ∈ Solver.sortLits ps)) ∧
    ((Solver.addScan s (Solver.sortLits ps) none []).1 = true →
      s.addClause_ ps = some (true,
        (Solver.addScan s (Solver.sortLits ps) none []).2 ++
          (Solver.sortLits ps).drop (Solver.addScan s (Solver.sortLits ps) none []).2.length,
        s)) ∧
    ((Solver.addScan s (Solver.sortLits ps) none []).1 = false →
      ∀ l1 l2 rest, (Solver.addScan s (Solver.sortLits ps) none []).2 = l1 :: l2 :: rest →
      ∃ s', s.addClause_ ps = some (true, l1 :: l2 :: rest, s') ∧
        s'.ca.clauses = s.ca.clauses ++ [⟨l1 :: l2 :: rest, false, 0, 0, 0, none⟩] ∧
        s'.clauses = s.clauses ++ [s.ca.clauses.length]) ∧
    ((demoUnit.addClause_ [3, 0, 2]).map (fun r => (r.1, r.2.1)) = some (true, [0, 2, 3]) ∧
      [0, 2, 3] ≠ [3, 0, 2]) := by
  obtain ⟨fresh, hf, hfs, hfm, _⟩ :=
    Solver.addScan_kept_spec s (Solver.sortLits ps) none []
      (List.sorted_insertionSort _ ps) (fun x hx => by cases hx)
  rw [List.nil_append] at hf
  refine ⟨List.sorted_insertionSort _ ps, List.perm_insertionSort _ ps,
    ⟨fresh, hf, hfs, hfm⟩, ?_, ?_, by decide, by decide⟩
  · intro hsat
    unfold Solver.addClause_
    rw [if_neg (by rw [hok]; exact fun h => h rfl)]
    dsimp only
    rw [if_pos hsat]
  · intro hnosat l1 l2 rest hshape
    unfold Solver.addClause_
    rw [if_neg (by rw [hok]; exact fun h => h rfl)]
    dsimp only
    rw [if_neg (by rw [hnosat]; exact fun h => nomatch h)]
    rw [hshape]
    refine ⟨_, rfl, ?_, ?_⟩
    · rw [(Solver.attachClause_proj _ _).1]
      rfl
    · rw [(Solver.attachClause_proj _ _).2]
      rfl

/-- Witness for `claim_C10` at the fresh two-variable solver with input
vector [2, 0]. -/
theorem claim_C10_witness :
    demoVars2.ok = true ∧
    ((Solver.sortLits [2, 0]).Sorted (· ≤ ·) ∧
    (Solver.sortLits [2, 0]).Perm [2, 0] ∧
    (∃ fresh, (Solver.addScan demoVars2 (Solver.sortLits [2, 0]) none []).2 = fresh ∧
      fresh.Sorted (· < ·) ∧
      (∀ q ∈ fresh, demoVars2.valueL q ≠ .lfalse ∧ q ∈ Solver.sortLits [2, 0])) ∧
    ((Solver.addScan demoVars2 (Solver.sortLits [2, 0]) none []).1 = true →
      demoVars2.addClause_ [2, 0] = some (true,
        (Solver.addScan demoVars2 (Solver.sortLits [2, 0]) none []).2 ++
          (Solver.sortLits [2, 0]).drop
            (Solver.addScan demoVars2 (Solver.sortLits [2, 0]) none []).2.length,
        demoVars2)) ∧
    ((Solver.addScan demoVars2 (Solver.sortLits [2, 0]) none []).1 = false →
      ∀ l1 l2 rest,
        (Solver.addScan demoVars2 (Solver.sortLits [2, 0]) none []).2 = l1 :: l2 :: rest →
      ∃ s', demoVars2.addClause_ [2, 0] = some (true, l1 :: l2 :: rest, s') ∧
        s'.ca.clauses = demoVars2.ca.clauses ++
          [⟨l1 :: l2 :: rest, false, 0, 0, 0, none⟩] ∧
        s'.clauses = demoVars2.clauses ++ [demoVars2.ca.clauses.length]) ∧
    ((demoUnit.addClause_ [3, 0, 2]).map (fun r => (r.1, r.2.1)) = some (true, [0, 2, 3]) ∧
      [0, 2, 3] ≠ [3, 0, 2])) :=
  ⟨by decide, claim_C10 demoVars2 [2, 0] (by decide)⟩

end CDCL

namespace CDCL
namespace Solver

/-! ### Claim C4 (propagate postconditions) -/
/-- Behaviour of the inner sweep of `propagate`: without conflict it leaves
`qhead` alone and only extends the trail; on a conflict it has set `qhead`
to the end of the trail and the final watch list is a compacted prefix, the
conflicting clause's watcher, then the untouched remaining suffix of the
list being swept. -/
theorem propInner_spec (p : Nat) :
    ∀ (ws : List Watcher) (s : Solver) (kept : List Watcher),
      ((propInner p s ws kept).2.2 = none →
        (propInner p s ws kept).1.qhead = s.qhead ∧
        s.trail.length ≤ (propInner p s ws kept).1.trail.length) ∧
      (∀ cr, (propInner p s ws kept).2.2 = some cr →
        (propInner p s ws kept).1.qhead = (propInner p s ws kept).1.trail.length ∧
        ∃ pre w' suf, suf <:+ ws ∧
          (propInner p s ws kept).2.1 = pre ++ w' :: suf ∧ w'.cref = cr) := by
  intro ws
  induction ws with
  | nil =>
    intro s kept
    exact ⟨fun _ => ⟨rfl, Nat.le_refl _⟩, fun cr hc => nomatch hc⟩
  | cons w rest ih =>
    intro s kept
    rw [propInner]
    split
    · refine ⟨(ih s _).1, fun cr hc => ?_⟩
      obtain ⟨hq, pre, w', suf, hsuf, hw, hcr⟩ := (ih s _).2 cr hc
      exact ⟨hq, pre, w', suf, hsuf.trans (List.suffix_cons w rest), hw, hcr⟩
    · dsimp only
      split
      · split
        · refine ⟨(ih _ _).1, fun cr hc => ?_⟩
          obtain ⟨hq, pre, w', suf, hsuf, hw, hcr⟩ := (ih _ _).2 cr hc
          exact ⟨hq, pre, w', suf, hsuf.trans (List.suffix_cons w rest), hw, hcr⟩
        · split
          · refine ⟨(ih _ _).1, fun cr hc => ?_⟩
            obtain ⟨hq, pre, w', suf, hsuf, hw, hcr⟩ := (ih _ _).2 cr hc
            exact ⟨hq, pre, w', suf, hsuf.trans (List.suffix_cons w rest), hw, hcr⟩
          · split
            · refine ⟨fun hno => absurd hno (by simp), fun cr hc => ?_⟩
              have hcr : w.cref = cr := Option.some_inj.mp hc
              exact ⟨rfl, kept, _, rest, List.suffix_cons w rest,
                (List.append_assoc kept _ rest).trans rfl, hcr⟩
            · refine ⟨fun hno => ?_, fun cr hc => ?_⟩
              · refine ⟨((ih _ _).1 hno).1, le_trans ?_ (((ih _ _).1 hno)).2⟩
                simp [uncheckedEnqueue]
              · obtain ⟨hq, pre, w', suf, hsuf, hw, hcr⟩ := (ih _ _).2 cr hc
                exact ⟨hq, pre, w', suf, hsuf.trans (List.suffix_cons w rest), hw, hcr⟩
      · split
        · refine ⟨(ih _ _).1, fun cr hc => ?_⟩
          obtain ⟨hq, pre, w', suf, hsuf, hw, hcr⟩ := (ih _ _).2 cr hc
          exact ⟨hq, pre, w', suf, hsuf.trans (List.suffix_cons w rest), hw, hcr⟩
        · split
          · refine ⟨(ih _ _).1, fun cr hc => ?_⟩
            obtain ⟨hq, pre, w', suf, hsuf, hw, hcr⟩ := (ih _ _).2 cr hc
            exact ⟨hq, pre, w', suf, hsuf.trans (List.suffix_cons w rest), hw, hcr⟩
          · split
            · refine ⟨fun hno => absurd hno (by simp), fun cr hc => ?_⟩
              have hcr : w.cref = cr := Option.some_inj.mp hc
              exact ⟨rfl, kept, _, rest, List.suffix_cons w rest,
                (List.append_assoc kept _ rest).trans rfl, hcr⟩
            · refine ⟨fun hno => ?_, fun cr hc => ?_⟩
              · refine ⟨((ih _ _).1 hno).1, le_trans ?_ (((ih _ _).1 hno)).2⟩
                simp [uncheckedEnqueue]
              · obtain ⟨hq, pre, w', suf, hsuf, hw, hcr⟩ := (ih _ _).2 cr hc
                exact ⟨hq, pre, w', suf, hsuf.trans (List.suffix_cons w rest), hw, hcr⟩

/-- The outer propagation loop: if it terminates with remaining fuel
(returning `some`), the resulting state has `qhead = |trail|`, both on the
fixpoint path and on the conflict path. -/
theorem propLoop_qhead :
    ∀ fuel (s : Solver), s.qhead ≤ s.trail.length →
      ∀ res s', propLoop fuel s = some (res, s') →
        s'.qhead = s'.trail.length := by
  intro fuel
  induction fuel with
  | zero =>
    intro s hq res s' h
    rw [propLoop] at h
    split at h
    · exact absurd h (by simp)
    · simp only [Option.some_inj, Prod.mk.injEq] at h
      obtain ⟨_, rfl⟩ := h
      omega
  | succ fuel ih =>
    intro s hq res s' h
    rw [propLoop] at h
    split at h
    case isTrue hlt =>
      dsimp only at h
      split at h
      case h_1 cr heq =>
        simp only [Option.some_inj, Prod.mk.injEq] at h
        obtain ⟨_, rfl⟩ := h
        exact ((propInner_spec _ _ _ _).2 cr heq).1
      case h_2 heq =>
        refine ih _ ?_ res s' h
        have h1 := (propInner_spec (s.trail.getD s.qhead 0)
          (s.watches.getD (s.trail.getD s.qhead 0) [])
          { s with qhead := s.qhead + 1, propagations := s.propagations + 1 } []).1 heq
        obtain ⟨hq1, htr1⟩ := h1
        exact le_trans (le_of_eq hq1)
          (le_trans (show s.qhead + 1 ≤ s.trail.length by omega) htr1)
    case isFalse hge =>
      simp only [Option.some_inj, Prod.mk.injEq] at h
      obtain ⟨_, rfl⟩ := h
      omega

end Solver
end CDCL

namespace CDCL

/-- C4: whenever the propagation queue starts no longer than the trail,
`propagate` always returns with `qhead = |trail|` — both when it returns
`CRef_Undef` at a fixpoint and when it returns a conflict reference — and
on a conflict the inner sweep has set `qhead = |trail|` and left the
remaining watchers of the current watch list untouched: the final list is
a prefix, the conflicting clause's watcher, then an unmodified suffix of
the list being swept. -/
theorem claim_C4 (fuel : Nat) (s : Solver) (hq : s.qhead ≤ s.trail.length) :
    (∀ res s', Solver.propagate fuel s = some (res, s') →
      s'.qhead = s'.trail.length) ∧
    (∀ p (t : Solver) ws kept cr,
      (Solver.propInner p t ws kept).2.2 = some cr →
      (Solver.propInner p t ws kept).1.qhead =
        (Solver.propInner p t ws kept).1.trail.length ∧
      ∃ pre w' suf, suf <:+ ws ∧
        (Solver.propInner p t ws kept).2.1 = pre ++ w' :: suf ∧
        w'.cref = cr) := by
  constructor
  · intro res s' h
    exact Solver.propLoop_qhead fuel s.cleanAll hq res s' h
  · intro p t ws kept cr hc
    exact (Solver.propInner_spec p ws t kept).2 cr hc

/-- Witness for C4 at the concrete two-variable decided state, whose
propagation finds a conflict. -/
theorem claim_C4_witness :
    demoDecided.qhead ≤ demoDecided.trail.length ∧
    ((∀ res s', Solver.propagate 3 demoDecided = some (res, s') →
      s'.qhead = s'.trail.length) ∧
    (∀ p (t : Solver) ws kept cr,
      (Solver.propInner p t ws kept).2.2 = some cr →
      (Solver.propInner p t ws kept).1.qhead =
        (Solver.propInner p t ws kept).1.trail.length ∧
      ∃ pre w' suf, suf <:+ ws ∧
        (Solver.propInner p t ws kept).2.1 = pre ++ w' :: suf ∧
        w'.cref = cr)) :=
  ⟨by decide, claim_C4 3 demoDecided (by decide)⟩

end CDCL

namespace CDCL
namespace Solver

/-- The literal scan of `analyze` only appends to `out_learnt`. -/
theorem analyzeLits_out_length :
    ∀ (lits : List Nat) (s : Solver) (nbRes : Nat) (out : List Nat),
      out.length ≤ (analyzeLits s lits nbRes out).2.2.length := by
  intro lits
  induction lits with
  | nil => intro s n out; exact le_refl _
  | cons q rest ih =>
    intro s n out
    rw [analyzeLits, List.foldl_cons]
    dsimp only
    split
    · split
      · exact ih _ _ _
      · exact le_trans (by simp) (ih _ _ (out ++ [q]))
    · exact ih _ _ _

/-- The `analyze` do-while only appends to `out_learnt`. -/
theorem analyzeLoop_out_length :
    ∀ fuel (s : Solver) (c p : Option Nat) (i nbRes : Nat) (out : List Nat)
      (s1 : Solver) (p1 : Nat) (out1 : List Nat),
      analyzeLoop fuel s c p i nbRes out = some (s1, p1, out1) →
      out.length ≤ out1.length := by
  intro fuel
  induction fuel with
  | zero =>
    intro s c p i n out s1 p1 out1 h
    rw [analyzeLoop] at h
    exact absurd h (by simp)
  | succ fuel ih =>
    intro s c p i n out s1 p1 out1 h
    cases c with
    | none =>
      rw [analyzeLoop] at h
      exact absurd h (by simp)
    | some cr =>
      rw [analyzeLoop] at h
      dsimp only at h
      split at h
      · exact absurd h (by simp)
      · repeat
          first
          | exact le_trans (analyzeLits_out_length _ _ _ out) (ih _ _ _ _ _ _ _ _ _ h)
          | (simp only [Option.some_inj, Prod.mk.injEq] at h
             obtain ⟨h1, h2, h3⟩ := h
             rw [← h3]
             exact analyzeLits_out_length _ _ _ out)
          | split at h

end Solver
end CDCL

namespace CDCL

/-- The first-argmax fold keeps its accumulator or lands in the scanned
range, never decreases the tracked value, and dominates the whole range. -/
theorem argmaxFold_spec (f : Nat → Nat) :
    ∀ (k a mi0 : Nat),
      (argmaxFold f a k mi0 = mi0 ∨
        (a ≤ argmaxFold f a k mi0 ∧ argmaxFold f a k mi0 < a + k)) ∧
      f mi0 ≤ f (argmaxFold f a k mi0) ∧
      ∀ i, a ≤ i → i < a + k → f i ≤ f (argmaxFold f a k mi0) := by
  intro k
  induction k with
  | zero =>
    intro a mi0
    exact ⟨Or.inl rfl, le_refl _, fun i h1 h2 => absurd h2 (by omega)⟩
  | succ k ih =>
    intro a mi0
    have hstep : argmaxFold f a (k + 1) mi0 =
        argmaxFold f (a + 1) k (if f a > f mi0 then a else mi0) := by
      rw [argmaxFold, List.range'_succ, List.foldl_cons]
      exact rfl
    obtain ⟨hR, hmi0, hall⟩ := ih (a + 1) (if f a > f mi0 then a else mi0)
    rw [hstep]
    have hstep2 : f mi0 ≤ f (if f a > f mi0 then a else mi0) := by
      split
      · omega
      · exact le_refl _
    have hstepa : f a ≤ f (if f a > f mi0 then a else mi0) := by
      split
      · exact le_refl _
      · omega
    refine ⟨?_, le_trans hstep2 hmi0, ?_⟩
    · rcases hR with h | h
      · rw [h]
        split
        · right
          omega
        · left
          rfl
      · right
        omega
    · intro i hi1 hi2
      rcases Nat.eq_or_lt_of_le hi1 with he | hlt
      · rw [← he]
        exact le_trans hstepa hmi0
      · exact hall i (by omega) (by omega)

end CDCL

namespace CDCL
namespace Solver

/-- `findMaxLevelIdx` returns an index in `[1, |out|)` whose literal's
decision level dominates every literal of `out[1..]`. -/
theorem findMaxLevelIdx_spec (s : Solver) (out : List Nat) (h2 : 2 ≤ out.length) :
    1 ≤ findMaxLevelIdx s out ∧ findMaxLevelIdx s out < out.length ∧
    ∀ i, 1 ≤ i → i < out.length →
      s.level (litVar (out.getD i 0)) ≤
        s.level (litVar (out.getD (findMaxLevelIdx s out) 0)) := by
  have heq : findMaxLevelIdx s out =
      argmaxFold (fun i => s.level (litVar (out.getD i 0))) 2 (out.length - 2) 1 := rfl
  obtain ⟨hR, hmi0, hall⟩ :=
    argmaxFold_spec (fun i => s.level (litVar (out.getD i 0))) (out.length - 2) 2 1
  rw [heq]
  refine ⟨?_, ?_, ?_⟩
  · rcases hR with h | h
    · omega
    · omega
  · rcases hR with h | h
    · omega
    · omega
  · intro i hi1 hi2
    rcases Nat.eq_or_lt_of_le hi1 with he | hlt
    · rw [← he]
      exact hmi0
    · exact hall i (by omega) (by omega)

end Solver
end CDCL

namespace CDCL

/-- C5: `analyze` places the asserting literal ¬p (negation of the first
UIP p found by the resolution loop) at `out_learnt[0]`; the returned
backjump level is 0 when the learnt clause is unit, and otherwise equals
the decision level of `out_learnt[1]`, which is the maximum decision level
among `out_learnt[1..]` and whose literal was moved to position 1 by a
single swap of positions 1 and `mi` of the pre-swap vector. -/
theorem claim_C5 (fuel : Nat) (s : Solver) (confl : Nat)
    (out : List Nat) (btl lb : Nat) (s' : Solver)
    (h : Solver.analyze fuel s confl = some (out, btl, lb, s')) :
    ∃ s1 p out1,
      Solver.analyzeLoop fuel s (some confl) none (s.trail.length - 1) 0 [0] =
        some (s1, p, out1) ∧
      out.getD 0 0 = litNeg p ∧
      (out.length = 1 → btl = 0 ∧ out = [litNeg p]) ∧
      (out.length ≠ 1 →
        ∃ mi, 1 ≤ mi ∧ mi < out.length ∧
          btl = s1.level (litVar (out.getD 1 0)) ∧
          (∀ i, 1 ≤ i → i < out.length →
            s1.level (litVar ((out1.set 0 (litNeg p)).getD i 0)) ≤ btl) ∧
          out = ((out1.set 0 (litNeg p)).set mi
            ((out1.set 0 (litNeg p)).getD 1 0)).set 1
            ((out1.set 0 (litNeg p)).getD mi 0)) := by
  rw [Solver.analyze] at h
  split at h
  · exact absurd h (by simp)
  · rename_i s1 p out1 heq
    have hlen1 : (1 : Nat) ≤ out1.length :=
      Solver.analyzeLoop_out_length fuel s (some confl) none
        (s.trail.length - 1) 0 [0] s1 p out1 heq
    dsimp only at h
    split at h
    case isTrue hc =>
      dsimp only at h
      simp only [Option.some_inj, Prod.mk.injEq] at h
      obtain ⟨hout, hbtl, hlbd, hs⟩ := h
      refine ⟨s1, p, out1, heq, ?_, fun _ => ⟨hbtl.symm, ?_⟩, fun hne => absurd ?_ hne⟩
      · rw [← hout]
        exact getD_set_self out1 0 (litNeg p) 0 (by omega)
      · have hl1 : out1.length = 1 := by simpa [List.length_set] using hc
        rw [← hout]
        obtain ⟨a, rfl⟩ : ∃ a, out1 = [a] := by
          match out1, hl1 with
          | [a], _ => exact ⟨a, rfl⟩
        rfl
      · rw [← hout]
        exact hc
    case isFalse hc =>
      dsimp only at h
      simp only [Option.some_inj, Prod.mk.injEq] at h
      obtain ⟨hout, hbtl, hlbd, hs⟩ := h
      have h2 : 2 ≤ (out1.set 0 (litNeg p)).length := by
        rw [List.length_set] at hc ⊢
        omega
      obtain ⟨hmi1, hmiL, hmax⟩ := Solver.findMaxLevelIdx_spec s1 (out1.set 0 (litNeg p)) h2
      set outA := out1.set 0 (litNeg p) with hA
      set mi := Solver.findMaxLevelIdx s1 outA with hmi
      have hlout : out.length = outA.length := by
        rw [← hout]
        simp [List.length_set]
      refine ⟨s1, p, out1, heq, ?_, ?_, ?_⟩
      · rw [← hout]
        rw [getD_set_ne _ 1 0 _ _ (by omega)]
        rw [getD_set_ne _ mi 0 _ _ (by omega)]
        rw [hA]
        exact getD_set_self out1 0 (litNeg p) 0 (by omega)
      · intro h1
        omega
      · intro _
        refine ⟨mi, hmi1, by omega, ?_, ?_, hout.symm⟩
        · rw [← hout]
          rw [getD_set_self _ 1 _ 0 (by rw [List.length_set]; omega)]
          exact hbtl.symm
        · intro i hi1 hi2
          rw [← hbtl]
          exact hmax i hi1 (by omega)

/-- Witness for C5 at the demo conflict: `analyze` there returns the unit
learnt clause `[0]` (= ¬x0) with backjump level 0 and LBD 1. -/
theorem claim_C5_witness :
    Solver.analyze 3 demoConflicted 2 =
      some ([0], 0, 1,
        ((Solver.analyze 3 demoConflicted 2).getD ([], 0, 0, initSolver)).2.2.2) ∧
    (∃ s1 p out1,
      Solver.analyzeLoop 3 demoConflicted (some 2) none
        (demoConflicted.trail.length - 1) 0 [0] = some (s1, p, out1) ∧
      ([0] : List Nat).getD 0 0 = litNeg p ∧
      (([0] : List Nat).length = 1 → (0 : Nat) = 0 ∧ [0] = [litNeg p]) ∧
      (([0] : List Nat).length ≠ 1 →
        ∃ mi, 1 ≤ mi ∧ mi < ([0] : List Nat).length ∧
          (0 : Nat) = s1.level (litVar (([0] : List Nat).getD 1 0)) ∧
          (∀ i, 1 ≤ i → i < ([0] : List Nat).length →
            s1.level (litVar ((out1.set 0 (litNeg p)).getD i 0)) ≤ 0) ∧
          ([0] : List Nat) = ((out1.set 0 (litNeg p)).set mi
            ((out1.set 0 (litNeg p)).getD 1 0)).set 1
            ((out1.set 0 (litNeg p)).getD mi 0))) :=
  ⟨rfl, claim_C5 3 demoConflicted 2 [0] 0 1 _ rfl⟩

end CDCL

namespace CDCL
namespace Solver

theorem conflicts_uncheckedEnqueue (s : Solver) (p : Nat) (fr : Option Nat) :
    (s.uncheckedEnqueue p fr).conflicts = s.conflicts := rfl

theorem conflicts_pushWatch (s : Solver) (p : Nat) (w : Watcher) :
    (s.pushWatch p w).conflicts = s.conflicts := rfl

theorem conflicts_cleanAll (s : Solver) : s.cleanAll.conflicts = s.conflicts := rfl

theorem conflicts_newDecisionLevel (s : Solver) : s.newDecisionLevel.conflicts = s.conflicts := rfl

theorem conflicts_varDecayActivity (s : Solver) : s.varDecayActivity.conflicts = s.conflicts := rfl

theorem conflicts_claDecayActivity (s : Solver) : s.claDecayActivity.conflicts = s.conflicts := rfl

theorem conflicts_insertVarOrder (s : Solver) (x : Nat) :
    (s.insertVarOrder x).conflicts = s.conflicts := by
  unfold insertVarOrder
  split <;> rfl

theorem conflicts_varBumpActivity (s : Solver) (v : Nat) :
    (s.varBumpActivity v).conflicts = s.conflicts := by
  unfold varBumpActivity
  dsimp only
  repeat first | rfl | split

theorem conflicts_claBumpActivity (s : Solver) (cr : Nat) :
    (s.claBumpActivity cr).conflicts = s.conflicts := by
  unfold claBumpActivity
  dsimp only
  repeat first | rfl | split

theorem conflicts_attachClause (s : Solver) (cr : Nat) :
    (s.attachClause cr).conflicts = s.conflicts := by
  unfold attachClause pushWatch
  dsimp only
  repeat first | rfl | split

theorem conflicts_detachClause (s : Solver) (cr : Nat) :
    (s.detachClause cr).conflicts = s.conflicts := by
  unfold detachClause
  dsimp only
  repeat first | rfl | split

theorem conflicts_removeClause (s : Solver) (cr : Nat) :
    (s.removeClause cr).conflicts = s.conflicts := by
  unfold removeClause detachClause
  dsimp only
  repeat first | rfl | split

theorem conflicts_cancelStep (s : Solver) (p : Nat) :
    (cancelStep s p).conflicts = s.conflicts := by
  unfold cancelStep insertVarOrder
  dsimp only
  repeat first | rfl | split

theorem conflicts_cancelFold :
    ∀ (l : List Nat) (s : Solver), (l.foldl cancelStep s).conflicts = s.conflicts := by
  intro l
  induction l with
  | nil => intro s; rfl
  | cons p rest ih =>
    intro s
    rw [List.foldl_cons]
    exact (ih _).trans (conflicts_cancelStep _ _)

theorem conflicts_cancelUntil (s : Solver) (lvl : Nat) :
    (s.cancelUntil lvl).conflicts = s.conflicts := by
  rw [cancelUntil]
  dsimp only
  split
  · exact conflicts_cancelFold _ _
  · rfl

theorem conflicts_computeLBD (s : Solver) (lits : List Nat) :
    (s.computeLBD lits).2.conflicts = s.conflicts := rfl

theorem conflicts_relocAll (s : Solver) (toA : Arena) :
    (s.relocAll toA).1.conflicts = s.conflicts := rfl

theorem conflicts_garbageCollect (s : Solver) : s.garbageCollect.conflicts = s.conflicts := rfl

theorem conflicts_checkGarbage (s : Solver) : s.checkGarbage.conflicts = s.conflicts := by
  rw [checkGarbage]
  split <;> rfl

theorem conflicts_pickLoopF :
    ∀ fuel (s : Solver), (pickLoopF fuel s).2.conflicts = s.conflicts := by
  intro fuel
  induction fuel with
  | zero => intro s; rfl
  | succ f ih =>
    intro s
    rw [pickLoopF]
    dsimp only
    split
    · rfl
    · split
      · rfl
      · exact ih _

theorem conflicts_pickBranchLit (s : Solver) :
    (pickBranchLit s).2.conflicts = s.conflicts := by
  rw [pickBranchLit]
  split
  · rename_i s1 heq
    have h2 := conflicts_pickLoopF (s.order_heap.heap.length + 1) s
    rw [heq] at h2
    exact h2
  · rename_i v s1 heq
    have h2 := conflicts_pickLoopF (s.order_heap.heap.length + 1) s
    rw [heq] at h2
    exact h2

theorem conflicts_propInner (p : Nat) :
    ∀ (ws : List Watcher) (s : Solver) (kept : List Watcher),
      (propInner p s ws kept).1.conflicts = s.conflicts := by
  intro ws
  induction ws with
  | nil => intro s kept; rfl
  | cons w rest ih =>
    intro s kept
    rw [propInner]
    repeat first | rfl | exact ih _ _ | split | dsimp only

theorem conflicts_propLoop :
    ∀ fuel (s : Solver) (res : Option Nat) (s1 : Solver),
      propLoop fuel s = some (res, s1) → s1.conflicts = s.conflicts := by
  intro fuel
  induction fuel with
  | zero =>
    intro s res s1 h
    rw [propLoop] at h
    split at h
    · exact absurd h (by simp)
    · simp only [Option.some_inj, Prod.mk.injEq] at h
      obtain ⟨h1, h2⟩ := h
      rw [← h2]
  | succ fuel ih =>
    intro s res s1 h
    rw [propLoop] at h
    split at h
    · dsimp only at h
      split at h
      · simp only [Option.some_inj, Prod.mk.injEq] at h
        obtain ⟨h1, h2⟩ := h
        rw [← h2]
        exact (conflicts_propInner _ _ _ _).trans rfl
      · exact (ih _ _ _ h).trans ((conflicts_propInner _ _ _ _).trans rfl)
    · simp only [Option.some_inj, Prod.mk.injEq] at h
      obtain ⟨h1, h2⟩ := h
      rw [← h2]

theorem conflicts_propagate (fuel : Nat) (s : Solver) (res : Option Nat) (s1 : Solver)
    (h : propagate fuel s = some (res, s1)) : s1.conflicts = s.conflicts := by
  unfold propagate at h
  exact (conflicts_propLoop _ _ _ _ h).trans rfl

theorem conflicts_analyzeLits :
    ∀ (lits : List Nat) (s : Solver) (nbRes : Nat) (out : List Nat),
      (analyzeLits s lits nbRes out).1.conflicts = s.conflicts := by
  intro lits
  induction lits with
  | nil => intro s n out; rfl
  | cons q rest ih =>
    intro s n out
    rw [analyzeLits, List.foldl_cons]
    dsimp only
    repeat
      first
      | exact (ih _ _ _).trans (conflicts_varBumpActivity _ _)
      | exact ih _ _ _
      | split

theorem conflicts_analyzeLoop :
    ∀ fuel (s : Solver) (c p : Option Nat) (i nbRes : Nat) (out : List Nat)
      (s1 : Solver) (p1 : Nat) (out1 : List Nat),
      analyzeLoop fuel s c p i nbRes out = some (s1, p1, out1) →
      s1.conflicts = s.conflicts := by
  intro fuel
  induction fuel with
  | zero =>
    intro s c p i n out s1 p1 out1 h
    rw [analyzeLoop] at h
    exact absurd h (by simp)
  | succ fuel ih =>
    intro s c p i n out s1 p1 out1 h
    cases c with
    | none =>
      rw [analyzeLoop] at h
      exact absurd h (by simp)
    | some cr =>
      rw [analyzeLoop] at h
      dsimp only at h
      split at h
      · exact absurd h (by simp)
      · repeat
          first
          | exact (ih _ _ _ _ _ _ _ _ _ h).trans
              ((conflicts_analyzeLits _ _ _ _).trans (conflicts_claBumpActivity _ _))
          | exact (ih _ _ _ _ _ _ _ _ _ h).trans
              ((conflicts_analyzeLits _ _ _ _).trans rfl)
          | (simp only [Option.some_inj, Prod.mk.injEq] at h
             obtain ⟨h1, h2, h3⟩ := h
             rw [← h1]
             first
             | exact (conflicts_analyzeLits _ _ _ _).trans (conflicts_claBumpActivity _ _)
             | exact (conflicts_analyzeLits _ _ _ _).trans rfl)
          | split at h

theorem conflicts_analyze (fuel : Nat) (s : Solver) (confl : Nat)
    (out : List Nat) (btl lb : Nat) (s1 : Solver)
    (h : analyze fuel s confl = some (out, btl, lb, s1)) : s1.conflicts = s.conflicts := by
  rw [analyze] at h
  split at h
  · exact absurd h (by simp)
  · rename_i sA pA outA heq
    have hA : sA.conflicts = s.conflicts := conflicts_analyzeLoop _ _ _ _ _ _ _ _ _ _ heq
    try dsimp only at h
    split at h
    · simp only [Option.some_inj, Prod.mk.injEq] at h
      obtain ⟨h1, h2, h3, h4⟩ := h
      rw [← h4]
      try dsimp only
      exact (conflicts_computeLBD _ _).trans hA
    · simp only [Option.some_inj, Prod.mk.injEq] at h
      obtain ⟨h1, h2, h3, h4⟩ := h
      rw [← h4]
      try dsimp only
      exact (conflicts_computeLBD _ _).trans hA

theorem conflicts_reduceDBLoop (n : Nat) :
    ∀ (items : List (Nat × Nat)) (s : Solver) (kept : List Nat),
      (reduceDBLoop n s items kept).1.conflicts = s.conflicts := by
  intro items
  induction items with
  | nil => intro s kept; rfl
  | cons iw rest ih =>
    intro s kept
    rw [reduceDBLoop]
    try dsimp only
    split
    · exact (ih _ _).trans (conflicts_removeClause _ _)
    · exact ih _ _

theorem conflicts_reduceDB (s : Solver) : s.reduceDB.conflicts = s.conflicts := by
  rw [reduceDB]
  dsimp only
  exact (conflicts_checkGarbage _).trans ((conflicts_reduceDBLoop _ _ _ _).trans rfl)

theorem lbdQueue_uncheckedEnqueue (s : Solver) (p : Nat) (fr : Option Nat) :
    (s.uncheckedEnqueue p fr).lbdQueue = s.lbdQueue := rfl

theorem lbdQueue_pushWatch (s : Solver) (p : Nat) (w : Watcher) :
    (s.pushWatch p w).lbdQueue = s.lbdQueue := rfl

theorem lbdQueue_cleanAll (s : Solver) : s.cleanAll.lbdQueue = s.lbdQueue := rfl

theorem lbdQueue_newDecisionLevel (s : Solver) : s.newDecisionLevel.lbdQueue = s.lbdQueue := rfl

theorem lbdQueue_varDecayActivity (s : Solver) : s.varDecayActivity.lbdQueue = s.lbdQueue := rfl

theorem lbdQueue_claDecayActivity (s : Solver) : s.claDecayActivity.lbdQueue = s.lbdQueue := rfl

theorem lbdQueue_insertVarOrder (s : Solver) (x : Nat) :
    (s.insertVarOrder x).lbdQueue = s.lbdQueue := by
  unfold insertVarOrder
  split <;> rfl

theorem lbdQueue_varBumpActivity (s : Solver) (v : Nat) :
    (s.varBumpActivity v).lbdQueue = s.lbdQueue := by
  unfold varBumpActivity
  dsimp only
  repeat first | rfl | split

theorem lbdQueue_claBumpActivity (s : Solver) (cr : Nat) :
    (s.claBumpActivity cr).lbdQueue = s.lbdQueue := by
  unfold claBumpActivity
  dsimp only
  repeat first | rfl | split

theorem lbdQueue_attachClause (s : Solver) (cr : Nat) :
    (s.attachClause cr).lbdQueue = s.lbdQueue := by
  unfold attachClause pushWatch
  dsimp only
  repeat first | rfl | split

theorem lbdQueue_detachClause (s : Solver) (cr : Nat) :
    (s.detachClause cr).lbdQueue = s.lbdQueue := by
  unfold detachClause
  dsimp only
  repeat first | rfl | split

theorem lbdQueue_removeClause (s : Solver) (cr : Nat) :
    (s.removeClause cr).lbdQueue = s.lbdQueue := by
  unfold removeClause detachClause
  dsimp only
  repeat first | rfl | split

theorem lbdQueue_cancelStep (s : Solver) (p : Nat) :
    (cancelStep s p).lbdQueue = s.lbdQueue := by
  unfold cancelStep insertVarOrder
  dsimp only
  repeat first | rfl | split

theorem lbdQueue_cancelFold :
    ∀ (l : List Nat) (s : Solver), (l.foldl cancelStep s).lbdQueue = s.lbdQueue := by
  intro l
  induction l with
  | nil => intro s; rfl
  | cons p rest ih =>
    intro s
    rw [List.foldl_cons]
    exact (ih _).trans (lbdQueue_cancelStep _ _)

theorem lbdQueue_cancelUntil (s : Solver) (lvl : Nat) :
    (s.cancelUntil lvl).lbdQueue = s.lbdQueue := by
  rw [cancelUntil]
  dsimp only
  split
  · exact lbdQueue_cancelFold _ _
  · rfl

theorem lbdQueue_computeLBD (s : Solver) (lits : List Nat) :
    (s.computeLBD lits).2.lbdQueue = s.lbdQueue := rfl

theorem lbdQueue_relocAll (s : Solver) (toA : Arena) :
    (s.relocAll toA).1.lbdQueue = s.lbdQueue := rfl

theorem lbdQueue_garbageCollect (s : Solver) : s.garbageCollect.lbdQueue = s.lbdQueue := rfl

theorem lbdQueue_checkGarbage (s : Solver) : s.checkGarbage.lbdQueue = s.lbdQueue := by
  rw [checkGarbage]
  split <;> rfl

theorem lbdQueue_pickLoopF :
    ∀ fuel (s : Solver), (pickLoopF fuel s).2.lbdQueue = s.lbdQueue := by
  intro fuel
  induction fuel with
  | zero => intro s; rfl
  | succ f ih =>
    intro s
    rw [pickLoopF]
    dsimp only
    split
    · rfl
    · split
      · rfl
      · exact ih _

theorem lbdQueue_pickBranchLit (s : Solver) :
    (pickBranchLit s).2.lbdQueue = s.lbdQueue := by
  rw [pickBranchLit]
  split
  · rename_i s1 heq
    have h2 := lbdQueue_pickLoopF (s.order_heap.heap.length + 1) s
    rw [heq] at h2
    exact h2
  · rename_i v s1 heq
    have h2 := lbdQueue_pickLoopF (s.order_heap.heap.length + 1) s
    rw [heq] at h2
    exact h2

theorem lbdQueue_propInner (p : Nat) :
    ∀ (ws : List Watcher) (s : Solver) (kept : List Watcher),
      (propInner p s ws kept).1.lbdQueue = s.lbdQueue := by
  intro ws
  induction ws with
  | nil => intro s kept; rfl
  | cons w rest ih =>
    intro s kept
    rw [propInner]
    repeat first | rfl | exact ih _ _ | split | dsimp only

theorem lbdQueue_propLoop :
    ∀ fuel (s : Solver) (res : Option Nat) (s1 : Solver),
      propLoop fuel s = some (res, s1) → s1.lbdQueue = s.lbdQueue := by
  intro fuel
  induction fuel with
  | zero =>
    intro s res s1 h
    rw [propLoop] at h
    split at h
    · exact absurd h (by simp)
    · simp only [Option.some_inj, Prod.mk.injEq] at h
      obtain ⟨h1, h2⟩ := h
      rw [← h2]
  | succ fuel ih =>
    intro s res s1 h
    rw [propLoop] at h
    split at h
    · dsimp only at h
      split at h
      · simp only [Option.some_inj, Prod.mk.injEq] at h
        obtain ⟨h1, h2⟩ := h
        rw [← h2]
        exact (lbdQueue_propInner _ _ _ _).trans rfl
      · exact (ih _ _ _ h).trans ((lbdQueue_propInner _ _ _ _).trans rfl)
    · simp only [Option.some_inj, Prod.mk.injEq] at h
      obtain ⟨h1, h2⟩ := h
      rw [← h2]

theorem lbdQueue_propagate (fuel : Nat) (s : Solver) (res : Option Nat) (s1 : Solver)
    (h : propagate fuel s = some (res, s1)) : s1.lbdQueue = s.lbdQueue := by
  unfold propagate at h
  exact (lbdQueue_propLoop _ _ _ _ h).trans rfl

theorem lbdQueue_analyzeLits :
    ∀ (lits : List Nat) (s : Solver) (nbRes : Nat) (out : List Nat),
      (analyzeLits s lits nbRes out).1.lbdQueue = s.lbdQueue := by
  intro lits
  induction lits with
  | nil => intro s n out; rfl
  | cons q rest ih =>
    intro s n out
    rw [analyzeLits, List.foldl_cons]
    dsimp only
    repeat
      first
      | exact (ih _ _ _).trans (lbdQueue_varBumpActivity _ _)
      | exact ih _ _ _
      | split

theorem lbdQueue_analyzeLoop :
    ∀ fuel (s : Solver) (c p : Option Nat) (i nbRes : Nat) (out : List Nat)
      (s1 : Solver) (p1 : Nat) (out1 : List Nat),
      analyzeLoop fuel s c p i nbRes out = some (s1, p1, out1) →
      s1.lbdQueue = s.lbdQueue := by
  intro fuel
  induction fuel with
  | zero =>
    intro s c p i n out s1 p1 out1 h
    rw [analyzeLoop] at h
    exact absurd h (by simp)
  | succ fuel ih =>
    intro s c p i n out s1 p1 out1 h
    cases c with
    | none =>
      rw [analyzeLoop] at h
      exact absurd h (by simp)
    | some cr =>
      rw [analyzeLoop] at h
      dsimp only at h
      split at h
      · exact absurd h (by simp)
      · repeat
          first
          | exact (ih _ _ _ _ _ _ _ _ _ h).trans
              ((lbdQueue_analyzeLits _ _ _ _).trans (lbdQueue_claBumpActivity _ _))
          | exact (ih _ _ _ _ _ _ _ _ _ h).trans
              ((lbdQueue_analyzeLits _ _ _ _).trans rfl)
          | (simp only [Option.some_inj, Prod.mk.injEq] at h
             obtain ⟨h1, h2, h3⟩ := h
             rw [← h1]
             first
             | exact (lbdQueue_analyzeLits _ _ _ _).trans (lbdQueue_claBumpActivity _ _)
             | exact (lbdQueue_analyzeLits _ _ _ _).trans rfl)
          | split at h

theorem lbdQueue_analyze (fuel : Nat) (s : Solver) (confl : Nat)
    (out : List Nat) (btl lb : Nat) (s1 : Solver)
    (h : analyze fuel s confl = some (out, btl, lb, s1)) : s1.lbdQueue = s.lbdQueue := by
  rw [analyze] at h
  split at h
  · exact absurd h (by simp)
  · rename_i sA pA outA heq
    have hA : sA.lbdQueue = s.lbdQueue := lbdQueue_analyzeLoop _ _ _ _ _ _ _ _ _ _ heq
    try dsimp only at h
    split at h
    · simp only [Option.some_inj, Prod.mk.injEq] at h
      obtain ⟨h1, h2, h3, h4⟩ := h
      rw [← h4]
      try dsimp only
      exact (lbdQueue_computeLBD _ _).trans hA
    · simp only [Option.some_inj, Prod.mk.injEq] at h
      obtain ⟨h1, h2, h3, h4⟩ := h
      rw [← h4]
      try dsimp only
      exact (lbdQueue_computeLBD _ _).trans hA

theorem lbdQueue_reduceDBLoop (n : Nat) :
    ∀ (items : List (Nat × Nat)) (s : Solver) (kept : List Nat),
      (reduceDBLoop n s items kept).1.lbdQueue = s.lbdQueue := by
  intro items
  induction items with
  | nil => intro s kept; rfl
  | cons iw rest ih =>
    intro s kept
    rw [reduceDBLoop]
    try dsimp only
    split
    · exact (ih _ _).trans (lbdQueue_removeClause _ _)
    · exact ih _ _

theorem lbdQueue_reduceDB (s : Solver) : s.reduceDB.lbdQueue = s.lbdQueue := by
  rw [reduceDB]
  dsimp only
  exact (lbdQueue_checkGarbage _).trans ((lbdQueue_reduceDBLoop _ _ _ _).trans rfl)

end Solver
end CDCL

namespace CDCL

theorem BQueue.push_elems_length (q : BQueue) (x : Nat) :
    (q.push x).elems.length ≤ q.elems.length + 1 := by
  unfold BQueue.push
  split
  · simp
  · simp

theorem BQueue.push_cap (q : BQueue) (x : Nat) : (q.push x).cap = q.cap := by
  unfold BQueue.push
  split <;> rfl

theorem BQueue.isvalid_eq (q : BQueue) (h : q.isvalid = true) :
    q.elems.length = q.cap := by
  simpa [BQueue.isvalid] using h

/-- `searchStep` preserves `C9Inv` on the continue path. -/
theorem C9Inv_searchStep_inl (s t : Solver) (hInv : C9Inv s)
    (h : Solver.searchStep s = some (.inl t)) : C9Inv t := by
  obtain ⟨hI1, hI2⟩ := hInv
  rw [Solver.searchStep] at h
  split at h
  · exact absurd h (by simp)
  · rename_i confl s1 heq1
    dsimp only at h
    split at h
    · exact absurd h (by simp)
    · split at h
      · exact absurd h (by simp)
      ·
        rename_i learnt btlevel lbd s5 heq2
        try dsimp only at h
        have hc1 := Solver.conflicts_propagate _ _ _ _ heq1
        have hq1 := Solver.lbdQueue_propagate _ _ _ _ heq1
        have hc5 : s5.conflicts = s1.conflicts + 1 :=
          (Solver.conflicts_analyze _ _ _ _ _ _ _ heq2).trans (by split <;> rfl)
        have hq5 := Solver.lbdQueue_analyze _ _ _ _ _ _ _ heq2
        have hlen4 : s5.lbdQueue.elems.length ≤ s1.lbdQueue.elems.length := by
          rw [hq5]
          split
          · exact Nat.zero_le _
          · exact Nat.le_refl _
        have hcap4 : s5.lbdQueue.cap = s1.lbdQueue.cap := by
          rw [hq5]
          split <;> rfl
        have hlen1 : s1.lbdQueue.elems.length = s.lbdQueue.elems.length := by rw [hq1]
        split at h
        · simp only [Option.some_inj, Sum.inl.injEq] at h
          subst h
          refine ⟨?_, ?_⟩
          · simp only [Solver.conflicts_claDecayActivity, Solver.conflicts_varDecayActivity,
              Solver.lbdQueue_claDecayActivity, Solver.lbdQueue_varDecayActivity,
              Solver.conflicts_uncheckedEnqueue, Solver.lbdQueue_uncheckedEnqueue,
              Solver.conflicts_cancelUntil, Solver.lbdQueue_cancelUntil]
            have hp := BQueue.push_elems_length s5.lbdQueue lbd
            omega
          · simp only [Solver.conflicts_claDecayActivity, Solver.conflicts_varDecayActivity,
              Solver.lbdQueue_claDecayActivity, Solver.lbdQueue_varDecayActivity,
              Solver.conflicts_uncheckedEnqueue, Solver.lbdQueue_uncheckedEnqueue,
              Solver.conflicts_cancelUntil, Solver.lbdQueue_cancelUntil]
            rw [BQueue.push_cap, hcap4, hq1]
            exact hI2
        · simp only [Option.some_inj, Sum.inl.injEq] at h
          subst h
          refine ⟨?_, ?_⟩
          · simp only [Solver.conflicts_claDecayActivity, Solver.conflicts_varDecayActivity,
              Solver.lbdQueue_claDecayActivity, Solver.lbdQueue_varDecayActivity,
              Solver.conflicts_uncheckedEnqueue, Solver.lbdQueue_uncheckedEnqueue,
              Solver.conflicts_claBumpActivity, Solver.lbdQueue_claBumpActivity,
              Solver.conflicts_attachClause, Solver.lbdQueue_attachClause,
              Solver.conflicts_cancelUntil, Solver.lbdQueue_cancelUntil]
            have hp := BQueue.push_elems_length s5.lbdQueue lbd
            omega
          · simp only [Solver.conflicts_claDecayActivity, Solver.conflicts_varDecayActivity,
              Solver.lbdQueue_claDecayActivity, Solver.lbdQueue_varDecayActivity,
              Solver.conflicts_uncheckedEnqueue, Solver.lbdQueue_uncheckedEnqueue,
              Solver.conflicts_claBumpActivity, Solver.lbdQueue_claBumpActivity,
              Solver.conflicts_attachClause, Solver.lbdQueue_attachClause,
              Solver.conflicts_cancelUntil, Solver.lbdQueue_cancelUntil]
            rw [BQueue.push_cap, hcap4, hq1]
            exact hI2
  · rename_i s1 heq1
    have hc1 := Solver.conflicts_propagate _ _ _ _ heq1
    have hq1 := Solver.lbdQueue_propagate _ _ _ _ heq1
    try dsimp only at h
    split at h
    · exact absurd h (by simp)
    · split at h
      · exact absurd h (by simp)
      · simp only [Option.some_inj, Sum.inl.injEq] at h
        subst h
        refine ⟨?_, ?_⟩
        · simp only [Solver.conflicts_uncheckedEnqueue, Solver.lbdQueue_uncheckedEnqueue,
            Solver.conflicts_newDecisionLevel, Solver.lbdQueue_newDecisionLevel,
            Solver.conflicts_pickBranchLit, Solver.lbdQueue_pickBranchLit]
          split <;> (try simp only [Solver.conflicts_reduceDB, Solver.lbdQueue_reduceDB]) <;>
            (rw [hc1, hq1]; exact hI1)
        · simp only [Solver.conflicts_uncheckedEnqueue, Solver.lbdQueue_uncheckedEnqueue,
            Solver.conflicts_newDecisionLevel, Solver.lbdQueue_newDecisionLevel,
            Solver.conflicts_pickBranchLit, Solver.lbdQueue_pickBranchLit]
          split <;> (try simp only [Solver.lbdQueue_reduceDB]) <;>
            (rw [hq1]; exact hI2)

theorem BQueue.fastclear_elems (q : BQueue) : q.fastclear.elems = [] := rfl

theorem BQueue.fastclear_cap (q : BQueue) : q.fastclear.cap = q.cap := rfl

/-- `searchStep` preserves `C9Inv` on the return path. -/
theorem C9Inv_searchStep_inr (s t : Solver) (r : LBool) (hInv : C9Inv s)
    (h : Solver.searchStep s = some (.inr (r, t))) : C9Inv t := by
  obtain ⟨hI1, hI2⟩ := hInv
  rw [Solver.searchStep] at h
  split at h
  · exact absurd h (by simp)
  · rename_i confl s1 heq1
    have hc1 := Solver.conflicts_propagate _ _ _ _ heq1
    have hq1 := Solver.lbdQueue_propagate _ _ _ _ heq1
    have hlen1 : s1.lbdQueue.elems.length = s.lbdQueue.elems.length := by rw [hq1]
    dsimp only at h
    split at h
    · simp only [Option.some_inj, Sum.inr.injEq, Prod.mk.injEq] at h
      obtain ⟨h1, h2⟩ := h
      subst h2
      refine ⟨?_, ?_⟩
      · dsimp only
        omega
      · dsimp only
        rw [hq1]
        exact hI2
    · split at h
      · exact absurd h (by simp)
      · rename_i learnt btlevel lbd s5 heq2
        try dsimp only at h
        exact absurd h (by simp)
  · rename_i s1 heq1
    have hc1 := Solver.conflicts_propagate _ _ _ _ heq1
    have hq1 := Solver.lbdQueue_propagate _ _ _ _ heq1
    have hlen1 : s1.lbdQueue.elems.length = s.lbdQueue.elems.length := by rw [hq1]
    try dsimp only at h
    split at h
    · simp only [Option.some_inj, Sum.inr.injEq, Prod.mk.injEq] at h
      obtain ⟨h1, h2⟩ := h
      subst h2
      refine ⟨?_, ?_⟩
      · simp only [Solver.conflicts_cancelUntil, Solver.lbdQueue_cancelUntil,
          BQueue.fastclear_elems]
        exact Nat.zero_le _
      · simp only [Solver.conflicts_cancelUntil, Solver.lbdQueue_cancelUntil,
          BQueue.fastclear_cap]
        rw [hq1]
        exact hI2
    · split at h
      · simp only [Option.some_inj, Sum.inr.injEq, Prod.mk.injEq] at h
        obtain ⟨h1, h2⟩ := h
        subst h2
        refine ⟨?_, ?_⟩
        · simp only [Solver.conflicts_pickBranchLit, Solver.lbdQueue_pickBranchLit]
          split <;> (try simp only [Solver.conflicts_reduceDB, Solver.lbdQueue_reduceDB]) <;>
            (rw [hc1, hq1]; exact hI1)
        · simp only [Solver.conflicts_pickBranchLit, Solver.lbdQueue_pickBranchLit]
          split <;> (try simp only [Solver.lbdQueue_reduceDB]) <;>
            (rw [hq1]; exact hI2)
      · exact absurd h (by simp)

/-- C9: the Glucose-restart division `sumLBD / conflicts` in `search` never
divides by zero: the LBD queue never holds more elements than conflicts
have been counted (every push is preceded by the conflict-counter
increment), the invariant holds initially and is preserved by every
`searchStep` transition, and at the evaluation point — the no-conflict
branch with `lbdQueue.isvalid()` — the denominator `conflicts` is ≥ 1. -/
theorem claim_C9 :
    C9Inv initSolver ∧
    (∀ s t : Solver, C9Inv s → Solver.searchStep s = some (.inl t) → C9Inv t) ∧
    (∀ (s t : Solver) (r : LBool), C9Inv s →
      Solver.searchStep s = some (.inr (r, t)) → C9Inv t) ∧
    (∀ s t : Solver, C9Inv s →
      Solver.propagate (Solver.propFuel s) s = some (none, t) →
      t.lbdQueue.isvalid = true → 1 ≤ t.conflicts) := by
  refine ⟨⟨by decide, by decide⟩, fun s t hI h => C9Inv_searchStep_inl s t hI h,
    fun s t r hI h => C9Inv_searchStep_inr s t r hI h, fun s t hI hp hv => ?_⟩
  have hc := Solver.conflicts_propagate _ _ _ _ hp
  have hq := Solver.lbdQueue_propagate _ _ _ _ hp
  have hlen := BQueue.isvalid_eq _ hv
  rw [hq] at hlen
  obtain ⟨hI1, hI2⟩ := hI
  omega

/-- Witness for C9: a concrete `searchStep` transition (the first decision
on the demo instance) through which the invariant is propagated. -/
theorem claim_C9_witness :
    C9Inv demoUnsat ∧
    Solver.searchStep demoUnsat =
      some (.inl (((Solver.searchStep demoUnsat).getD
        (.inr (.lundef, initSolver))).getLeft?.getD initSolver)) ∧
    C9Inv (((Solver.searchStep demoUnsat).getD
        (.inr (.lundef, initSolver))).getLeft?.getD initSolver) :=
  ⟨⟨by decide, by decide⟩, rfl,
   claim_C9.2.1 demoUnsat _ ⟨by decide, by decide⟩ rfl⟩

/-- Refutation of C3's model value: on `p cnf 2 0` (two fresh variables, no
clauses) `solve` answers SAT, but the model is [False, False], not
[True, True]. -/
theorem claim_C3_counterexample :
    ¬ ((Solver.solve 5 10 demoVars2).map (fun r => (r.1, r.2.2.model)) =
      some (.ltrue, [.ltrue, .ltrue])) := by decide

/-- C3 (amended): each decision assigns the variable `lbool(!sign)` of the
picked literal `mkLit(next, polarity[next])`; with the default saved
polarity `true` set by `newVar` the decision literal is negative and the
variable is assigned False, so `p cnf 2 0` solves to SAT with model
[False, False]. -/
theorem claim_C3 :
    (∀ (s : Solver) (v : Nat), v < s.assigns.length →
      (s.uncheckedEnqueue (mkLit v true) none).value v = .lfalse) ∧
    demoVars2.polarity = [true, true] ∧
    (Solver.solve 5 10 demoVars2).map (fun r => (r.1, r.2.2.model)) =
      some (.ltrue, [.lfalse, .lfalse]) := by
  refine ⟨fun s v hv => ?_, by decide, by decide⟩
  have h1 : litVar (mkLit v true) = v := by
    simp [mkLit, litVar]
    omega
  have h2 : litSign (mkLit v true) = true := by
    simp [mkLit, litSign]
    omega
  show (s.assigns.set (litVar (mkLit v true))
      (lboolOf (!litSign (mkLit v true)))).getD v .lundef = .lfalse
  rw [h1, h2]
  exact getD_set_self _ _ _ _ hv

/-- Witness for the amended C3 at the concrete two-variable state. -/
theorem claim_C3_witness :
    (0 < demoVars2.assigns.length ∧
      (demoVars2.uncheckedEnqueue (mkLit 0 true) none).value 0 = .lfalse) ∧
    demoVars2.polarity = [true, true] ∧
    (Solver.solve 5 10 demoVars2).map (fun r => (r.1, r.2.2.model)) =
      some (.ltrue, [.lfalse, .lfalse]) :=
  ⟨⟨by decide, claim_C3.1 demoVars2 0 (by decide)⟩, claim_C3.2.1, claim_C3.2.2⟩

/-- Refutation of C2: with `setConfBudget 0`, solving the non-trivial
four-clause instance does not return Undef with zero decisions and zero
conflicts — the first `search` call runs to completion (the budget is
never consulted inside `search`). -/
theorem claim_C2_counterexample :
    ¬ ((Solver.solve_ 5 10 (demoUnsat.setConfBudget 0)).map
        (fun r => (r.1, r.2.2.decisions, r.2.2.conflicts)) =
      some (.lundef, 0, 0)) := by decide

/-- C2 (amended): the conflict budget only takes effect between `search`
calls: `solveLoop` returns right after its first `search` call whenever
`withinBudget` is false afterwards, and with `setConfBudget 0` the budget
is already exhausted on entry; on the demo instance the answer is
l_False after one `search` call, one decision and two conflicts. -/
theorem claim_C2 :
    (∀ (rfuel sfuel n : Nat) (s : Solver) (st : LBool) (s2 : Solver),
      Solver.search sfuel { s with starts := s.starts + 1 } = some (st, s2) →
      s2.withinBudget = false →
      Solver.solveLoop (rfuel + 1) sfuel n s = some (st, n + 1, s2)) ∧
    Solver.withinBudget (demoUnsat.setConfBudget 0) = false ∧
    (Solver.solve_ 5 10 (demoUnsat.setConfBudget 0)).map
      (fun r => (r.1, r.2.1, r.2.2.decisions, r.2.2.conflicts)) =
      some (.lfalse, 1, 1, 2) := by
  refine ⟨fun rfuel sfuel n s st s2 h hwb => ?_, by decide, by decide⟩
  rw [Solver.solveLoop]
  try dsimp only
  rw [h]
  simp [hwb]

/-- An `Option` that is `some` equals `some` of its `getD`. -/
theorem opt_eq_some_getD {α : Type} (o : Option α) (d : α) (h : o.isSome = true) :
    o = some (o.getD d) := by
  cases o with
  | none => exact absurd h (by simp)
  | some a => rfl

set_option maxHeartbeats 8000000 in
/-- Witness for the amended C2 at the concrete budgeted run. -/
theorem claim_C2_witness :
    Solver.search 4 { demoBudget with starts := demoBudget.starts + 1 } =
      some demoBudgetRun ∧
    demoBudgetRun.2.withinBudget = false ∧
    Solver.solveLoop 1 4 0 demoBudget =
      some (demoBudgetRun.1, 0 + 1, demoBudgetRun.2) :=
  ⟨opt_eq_some_getD _ (.lundef, initSolver) (by decide), by decide,
   claim_C2.1 0 4 0 demoBudget demoBudgetRun.1 demoBudgetRun.2
     (opt_eq_some_getD _ (.lundef, initSolver) (by decide)) (by decide)⟩

end CDCL

